import Mathlib

/-!
Verification development for the state-resolution core of `ruma-state-res`
(`src/crates/ruma-state-res/src/lib.rs`).

Modelling conventions, used throughout:
* Event ids (`EventId`), user ids, event types and state keys are `String`s.
  `StateEventType` is modelled as its string form (the source converts
  `TimelineEventType` to `StateEventType` through `to_string`).
* `js_int::Int` is `Int`, `MilliSecondsSinceUnixEpoch` is `Nat`.
* A Rust `HashMap` is modelled as an association list; a `HashSet` as a list.
  Since Rust hash containers are unordered, maps and sets produced by the
  algorithm are built in a canonical (key-sorted, deduplicated) form, and
  map equality in theorems is extensional (`lookupSM`) where it matters.
* Async closures (`fetch`, `exists`) become plain functions `Id → Option Event`
  and `Id → Bool` (the source is strictly sequential between awaits).
* JSON content is modelled as an inductive `Content`; the fallible serde
  parses of the source become the `Option`-valued projections below.
* Source loops that walk auth ancestry through the unbounded `fetch` oracle
  (the mainline walk and the mainline-depth walk) cannot be proved
  terminating without assumptions, so they take a fuel parameter; the source
  would diverge where the model returns the distinguished `Error.fuelExhausted`,
  which no source path produces.
-/

namespace StateRes

/-- Event identifier, totally ordered (lexicographically, as in the source). -/
abbrev Id := String

/-- The pair (event type as state, state key): key of a `StateMap`. -/
abbrev StateKey := String × String

/-- `StateMap<T>`: association-list model of the source's
`HashMap<(StateEventType, String), T>`. -/
abbrev StMap (α : Type) := List (StateKey × α)

/-- `MembershipState` values relevant to the resolver. -/
inductive Membership
  | join
  | leave
  | ban
  | invite
  | knock
deriving DecidableEq, Repr

/-- Model of an event's JSON content, exposing exactly the two parses the
resolver performs (`RoomMemberEventContent` and `PowerLevelsContentFields`).
`malformed` is content on which every parse fails. -/
inductive Content
  | member (membership : Membership)
  | powerLevels (users : List (String × Int)) (usersDefault : Int)
  | otherContent
  | malformed
deriving DecidableEq, Repr

/-- `from_json_str::<RoomMemberEventContent>`: succeeds exactly on member
content, yielding its `membership`. -/
def parseMemberContent : Content → Option Membership
  | .member m => some m
  | _ => none

/-- `from_json_str::<PowerLevelsContentFields>`: succeeds exactly on
power-levels content, yielding `(users, users_default)`. -/
def parsePowerLevelsContent : Content → Option (List (String × Int) × Int)
  | .powerLevels u d => some (u, d)
  | _ => none

/-- The `Event` trait capability set (`state_event.rs` interface as used by
`lib.rs`): id, type, state key, sender, content, auth events, timestamp. -/
structure Event where
  eventId : Id
  eventType : String
  stateKey : Option String
  sender : String
  content : Content
  authEvents : List Id
  originServerTs : Nat
deriving DecidableEq, Repr

/-- The error taxonomy of `error.rs` as described by the spec (§7); the module
itself is not under `src/`. `fuelExhausted` is a modelling artifact marking
divergence of a source loop (see the header comment); no theorem below relies
on it being produced. -/
inductive Error
  | notFound (msg : String)
  | invalidPdu (msg : String)
  | serde
  | unsupportedRoomVersion (v : String)
  | fuelExhausted
deriving DecidableEq, Repr

/-- Room-version record, opaque to the resolver: the tag. -/
abbrev RoomVersion := String

/-- Modelled from the spec: `RoomVersion::new` lives in `room_version.rs`,
which is not under `src/`. Spec §7: "Unsupported(version) — unknown room
version tag"; known tags map to their feature record (here: the tag). -/
def roomVersionNew (v : String) : Except Error RoomVersion :=
  if v ∈ ["1", "2", "3", "4", "5", "6", "7", "8", "9", "10", "11"] then .ok v
  else .error (.unsupportedRoomVersion v)

/-- `HashMap::get` on a state map. -/
def lookupSM {α : Type} (m : StMap α) (k : StateKey) : Option α :=
  (m.find? (fun p => decide (p.1 = k))).map Prod.snd

/-- `HashMap::insert` (overwrite semantics). -/
def insertSM {α : Type} (m : StMap α) (k : StateKey) (v : α) : StMap α :=
  m.filter (fun p => !decide (p.1 = k)) ++ [(k, v)]

/-- `HashMap::extend`: every entry of `overlay` is inserted into `base`,
overwriting (used for `resolved_state.extend(clean)`). -/
def extendSM {α : Type} (base overlay : StMap α) : StMap α :=
  overlay.foldl (fun acc p => insertSM acc p.1 p.2) base

/-- An association list is a well-formed map when its keys are distinct
(always true of a Rust `HashMap`). -/
def NodupKeys {α : Type} (m : StMap α) : Prop := (m.map Prod.fst).Nodup

/-- `Option::ok_or_else`. -/
def orThrow {α : Type} : Option α → Error → Except Error α
  | some a, _ => .ok a
  | none, e => .error e

/-- Byte-wise strict lexicographic order on character lists (the order Rust
uses on event-id strings), written structurally so concrete runs reduce
inside the kernel. -/
def charsLt : List Char → List Char → Bool
  | [], [] => false
  | [], _ :: _ => true
  | _ :: _, [] => false
  | a :: as, b :: bs =>
    if a.toNat < b.toNat then true
    else if b.toNat < a.toNat then false
    else charsLt as bs

/-- Strict lexicographic order on strings (Rust `Ord` on ids). -/
def idLt (a b : String) : Bool := charsLt a.data b.data

/-- The matching reflexive order. -/
def idLe (a b : String) : Bool := !idLt b a

/-- Insert into a `le`-sorted list, keeping it sorted (stable: equal keys
keep their relative order, as Rust's stable sorts do). -/
def insertSorted {α : Type} (le : α → α → Bool) (a : α) : List α → List α
  | [] => [a]
  | b :: bs => if le a b then a :: b :: bs else b :: insertSorted le a bs

/-- Stable insertion sort (structural, so that concrete runs of the model
reduce inside the kernel). -/
def sortBy {α : Type} (le : α → α → Bool) : List α → List α
  | [] => []
  | a :: as => insertSorted le a (sortBy le as)

/-- Total order used to canonicalize id sets. -/
def strLe (a b : String) : Bool := idLe a b

/-- Canonical form of a `HashSet<Id>`: sorted, deduplicated. -/
def canonSet (l : List Id) : List Id := sortBy strLe l.dedup

/-- Lexicographic order on state keys, to canonicalize key iteration. -/
def keyLe (a b : StateKey) : Bool :=
  if a.1 = b.1 then idLe a.2 b.2 else idLt a.1 b.1

/-- Canonical list of the distinct keys occurring across the state sets
(the source iterates them in first-seen order via `unique()` and fills
unordered `HashMap`s; the model fixes the canonical key-sorted order). -/
def canonKeys (l : List StateKey) : List StateKey := sortBy keyLe l.dedup

/-- The keys of one state map. -/
def keysOf {α : Type} (m : StMap α) : List StateKey := m.map Prod.fst

/-- `itertools` `all_equal`: every element equals every other (true on `[]`
and singletons). -/
def allEqual {α : Type} [DecidableEq α] : List α → Bool
  | [] => true
  | x :: xs => xs.all (fun y => decide (y = x))

/-- The entry (or absence) each input state set associates with `k`,
in input order: `state_sets_iter.clone().map(|s| s.get(key))`. -/
def collectVals {α : Type} (sets : List (StMap α)) (k : StateKey) : List (Option α) :=
  sets.map (fun m => lookupSM m k)

/-- `separate` (lib.rs:179-205): split the input state maps into the
unconflicted map and the conflicted map. For each key occurring anywhere:
if the per-set entries are all equal (hence all present), the key is
unconflicted with that value (the source takes the popped last entry and
panics if it were `None`, which cannot happen; the model drops the key on
that unreachable branch); otherwise the key is conflicted with the list of
present values, absences dropped. The source fills two `HashMap`s in one
loop; the model produces the same two maps as canonical lists. -/
def separate {α : Type} [DecidableEq α] (sets : List (StMap α)) :
    StMap α × StMap (List α) :=
  let ks := canonKeys (sets.flatMap keysOf)
  (ks.filterMap (fun k =>
      let vals := collectVals sets k
      if allEqual vals then vals.getLast?.join.map (fun v => (k, v)) else none),
   ks.filterMap (fun k =>
      let vals := collectVals sets k
      if allEqual vals then none else some (k, vals.filterMap id)))

/-- `get_auth_chain_diff` (lib.rs:208-219): ids occurring in at least one
auth-chain set whose occurrence count across the sets (each set holds an id
at most once) is strictly below the number of sets. The source emits them in
unspecified `HashMap` order; the model emits the canonical order. -/
def getAuthChainDiff (authChainSets : List (List Id)) : List Id :=
  (canonSet (authChainSets.flatMap (fun s => s))).filter
    (fun i => decide (authChainSets.countP (fun s => decide (i ∈ s)) < authChainSets.length))

/-- `is_type_and_key` (lib.rs:667-669). -/
def isTypeAndKey (ev : Event) (t : String) (k : String) : Bool :=
  decide (ev.eventType = t) && decide (ev.stateKey = some k)

/-- `is_power_event` (lib.rs:671-687). -/
def isPowerEvent (event : Event) : Bool :=
  if event.eventType = "m.room.power_levels" ∨ event.eventType = "m.room.join_rules" ∨
      event.eventType = "m.room.create" then
    decide (event.stateKey = some "")
  else if event.eventType = "m.room.member" then
    match parseMemberContent event.content with
    | some m =>
      if m = .leave ∨ m = .ban then decide (some event.sender ≠ event.stateKey) else false
    | none => false
  else
    false

/-- `is_power_event_id` (lib.rs:654-665). -/
def isPowerEventId (fetch : Id → Option Event) (eventId : Id) : Bool :=
  match fetch eventId with
  | some state => isPowerEvent state
  | none => false

/-- The auth DAG fragment: each node mapped to its in-diff auth parents
(`HashMap<Id, HashSet<Id>>`, modelled canonically). -/
abbrev Graph := List (Id × List Id)

/-- The node set of a graph. -/
def graphKeys (g : Graph) : List Id := g.map Prod.fst

/-- The in-diff auth parents of one event: its `auth_events()` restricted to
`auth_diff` (empty when the event cannot be fetched), deduplicated as the
source's `HashSet` edge set is. -/
def inDiffParents (fetch : Id → Option Event) (authDiff : List Id) (eventId : Id) : List Id :=
  match fetch eventId with
  | some ev => canonSet (ev.authEvents.filter (fun a => decide (a ∈ authDiff)))
  | none => []

/-- One round of the worklist of `add_event_and_auth_chain_to_graph`
(lib.rs:624-652): a reached node's in-diff parents are reached. -/
def reachStep (fetch : Id → Option Event) (authDiff : List Id) (s : List Id) : List Id :=
  canonSet (s ++ s.flatMap (inDiffParents fetch authDiff))

/-- The node set the worklist of `add_event_and_auth_chain_to_graph` visits,
starting from all seeds: the seeds closed under in-diff parenthood. Newly
reached nodes all lie in `auth_diff`, so `authDiff.length + 1` rounds reach
the fixpoint the source's worklist computes. -/
def reachSet (fetch : Id → Option Event) (authDiff : List Id) (seeds : List Id) : List Id :=
  (reachStep fetch authDiff)^[authDiff.length + 1] (canonSet seeds)

/-- The graph built by running `add_event_and_auth_chain_to_graph` over all
`events_to_sort` (lib.rs:242-249): every visited node keyed to its in-diff
parent edge set. -/
def buildGraph (fetch : Id → Option Event) (authDiff : List Id) (seeds : List Id) : Graph :=
  (reachSet fetch authDiff seeds).map (fun i => (i, inDiffParents fetch authDiff i))

/-- The first power-levels parent among `auth_events`, skipping parents that
cannot be fetched — the search of `get_power_level_for_sender`
(lib.rs:389-396). -/
def findPlParentLenient (fetch : Id → Option Event) : List Id → Option Event
  | [] => none
  | aid :: rest =>
    match fetch aid with
    | some aev =>
      if isTypeAndKey aev "m.room.power_levels" "" then some aev
      else findPlParentLenient fetch rest
    | none => findPlParentLenient fetch rest

/-- `get_power_level_for_sender` (lib.rs:374-411): the sender's entry in the
first fetchable power-levels auth parent's `users`, falling back to
`users_default`, then to `0` when no power-levels parent is found; a parent
that fails to parse is a serde error. -/
def getPowerLevelForSender (fetch : Id → Option Event) (eventId : Id) : Except Error Int :=
  let event := fetch eventId
  let pl := findPlParentLenient fetch ((event.map Event.authEvents).getD [])
  match pl with
  | none => .ok 0
  | some ev =>
    match parsePowerLevelsContent ev.content with
    | none => .error .serde
    | some (users, usersDefault) =>
      match event with
      | some e =>
        match (users.find? (fun p => decide (p.1 = e.sender))).map Prod.snd with
        | some userLevel => .ok userLevel
        | none => .ok usersDefault
      | none => .ok usersDefault

/-- The strict order of the `TieBreaker` min-heap (lib.rs:292-297): compare
`(inv_power_level, age, event_id)` lexicographically, where
`inv_power_level = -power_level`, so higher power sorts earlier. -/
def tbLt (a b : (Int × Nat) × Id) : Bool :=
  if a.1.1 = b.1.1 then
    if a.1.2 = b.1.2 then idLt a.2 b.2 else decide (a.1.2 < b.1.2)
  else decide (b.1.1 < a.1.1)

/-- The least element of a list under a strict order `lt` (the element the
`BinaryHeap` pops; unique when all elements are `lt`-comparable). -/
def pickMinBy {α : Type} (lt : α → α → Bool) : List α → Option α
  | [] => none
  | x :: xs => some (xs.foldl (fun acc y => if lt y acc then y else acc) x)

/-- The nodes currently poppable in `lexicographical_topological_sort`:
graph nodes not yet emitted whose whole out-edge set has been emitted.
The source's heap holds exactly these nodes: a node enters the heap when the
pops of its out-neighbours empty its `outdegree_map` entry (lib.rs:341-360),
and initially when its edge set is empty (lib.rs:318-327). Edges pointing
outside the key set are never removed, so such nodes never become available,
as in the source. -/
def availNodes (g : Graph) (emitted : List Id) : List Id :=
  g.filterMap (fun p =>
    if p.1 ∈ emitted then none
    else if ∀ q ∈ p.2, q ∈ emitted then some p.1
    else none)

/-- The pop loop of `lexicographical_topological_sort` (lib.rs:336-366):
while some node is available, evaluate `key_fn` on the available nodes and
emit the heap minimum. Fuel bounds the number of pops; `graphKeys g` are
emitted at most once each, so `g.length` suffices exactly. -/
def kahnAux (g : Graph) (keyFn : Id → Except Error (Int × Nat)) :
    Nat → List Id → Except Error (List Id)
  | 0, _ => .ok []
  | fuel + 1, emitted =>
    match availNodes g emitted with
    | [] => .ok []
    | a :: rest => do
      let keyed ← (a :: rest).mapM (fun n => (keyFn n).map (fun k => (k, n)))
      match pickMinBy tbLt keyed with
      | none => .ok []
      | some best => do
        let tail ← kahnAux g keyFn fuel (best.2 :: emitted)
        .ok (best.2 :: tail)

/-- `lexicographical_topological_sort` (lib.rs:283-367): Kahn's algorithm over
outdegree with the `(-power_level, age, event_id)` tiebreak. -/
def lexicographicalTopologicalSort (g : Graph) (keyFn : Id → Except Error (Int × Nat)) :
    Except Error (List Id) :=
  kahnAux g keyFn g.length []

/-- `reverse_topological_power_sort` (lib.rs:229-276): build the auth-diff
graph over the events to sort, compute each node's sender power level, and
topologically sort with the key closure of lib.rs:269-273 (a node missing
from the power-level table or unfetchable yields `NotFound("")`). -/
def reverseTopologicalPowerSort (eventsToSort : List Id) (authDiff : List Id)
    (fetch : Id → Option Event) : Except Error (List Id) := do
  let eventToPl ← (graphKeys (buildGraph fetch authDiff eventsToSort)).mapM
    (fun i => (getPowerLevelForSender fetch i).map (fun pl => (i, pl)))
  lexicographicalTopologicalSort (buildGraph fetch authDiff eventsToSort)
    (fun eventId => do
      let pl ← orThrow ((eventToPl.find? (fun p => decide (p.1 = eventId))).map Prod.snd)
        (.notFound "")
      let ev ← orThrow (fetch eventId) (.notFound "")
      pure (pl, ev.originServerTs))

/-- `auth_types_for_event` (exported from `event_auth`, not under `src/`):
black-box capability enumerating the state keys needed to authorize an event
(spec §6.1), taking (type, sender, state key, content). -/
abbrev AuthTypesFn := String → String → Option String → Content → Except Error (List StateKey)

/-- `auth_check` (exported from `event_auth`, not under `src/`): black-box
authorization (spec §6.1), taking the room version, the event under check,
an optional third-party-invite event, and the auth-context lookup. -/
abbrev AuthCheckFn :=
  RoomVersion → Event → Option Event → (String → String → Option Event) → Except Error Bool

/-- The auth-context gathering loop of `iterative_auth_check`
(lib.rs:450-463): each fetchable id of the event's `auth_events` is inserted
under its (type, state key); a fetched parent without a state key is an
`InvalidPdu` error; an unfetchable parent is skipped with a warning. -/
def gatherAuthEvents (fetch : Id → Option Event) :
    StMap Event → List Id → Except Error (StMap Event)
  | m, [] => .ok m
  | m, aid :: rest =>
    match fetch aid with
    | some ev =>
      match ev.stateKey with
      | some sk => gatherAuthEvents fetch (insertSM m (ev.eventType, sk) ev) rest
      | none => .error (.invalidPdu "State event had no state key")
    | none => gatherAuthEvents fetch m rest

/-- The body of the `events_to_check` loop of `iterative_auth_check`
(lib.rs:441-502) for one event id against the state resolved so far. -/
def checkOne (rv : RoomVersion) (fetch : Id → Option Event)
    (authTypesForEvent : AuthTypesFn) (authCheckFn : AuthCheckFn)
    (resolvedState : StMap Id) (eventId : Id) : Except Error (StMap Id) := do
  let event ← orThrow (fetch eventId) (.notFound ("Failed to find " ++ eventId))
  let stateKey ← orThrow event.stateKey (.invalidPdu "State event had no state key")
  let authEvents ← gatherAuthEvents fetch [] event.authEvents
  let tys ← authTypesForEvent event.eventType event.sender (some stateKey) event.content
  let authEvents := tys.foldl (fun m key =>
    match lookupSM resolvedState key with
    | some evId =>
      match fetch evId with
      | some ev => insertSM m key ev
      | none => m
    | none => m) authEvents
  let currentThirdParty := (authEvents.find?
    (fun p => decide (p.2.eventType = "m.room.third_party_invite"))).map Prod.snd
  let fetchState := fun (ty : String) (key : String) => lookupSM authEvents (ty, key)
  let ok ← authCheckFn rv event currentThirdParty fetchState
  if ok then pure (insertSM resolvedState (event.eventType, stateKey) eventId)
  else pure resolvedState

/-- `iterative_auth_check` (lib.rs:422-504): fold `checkOne` over the ordered
event ids, seeded with the unconflicted state. -/
def iterativeAuthCheck (rv : RoomVersion) (eventsToCheck : List Id)
    (unconflictedState : StMap Id) (fetch : Id → Option Event)
    (authTypesForEvent : AuthTypesFn) (authCheckFn : AuthCheckFn) :
    Except Error (StMap Id) :=
  eventsToCheck.foldlM (checkOne rv fetch authTypesForEvent authCheckFn) unconflictedState

/-- The power-levels parent search of the mainline walk (lib.rs:540-548):
each auth parent in turn must fetch (`NotFound` otherwise); the first with
type `m.room.power_levels` and state key `""` is the next mainline node. -/
def findPlParentStrict (fetch : Id → Option Event) : List Id → Except Error (Option Id)
  | [] => .ok none
  | aid :: rest =>
    match fetch aid with
    | none => .error (.notFound ("Failed to find " ++ aid))
    | some ev =>
      if isTypeAndKey ev "m.room.power_levels" "" then .ok (some aid)
      else findPlParentStrict fetch rest

/-- The `while let Some(p) = pl` walk of `mainline_sort` (lib.rs:531-552):
collect the chain of power-levels events from the resolved tip backwards.
The node itself must fetch (`NotFound` otherwise). -/
def mainlineWalk (fetch : Id → Option Event) : Nat → Option Id → Except Error (List Id)
  | _, none => .ok []
  | 0, some _ => .error .fuelExhausted
  | fuel + 1, some p => do
    let event ← orThrow (fetch p) (.notFound ("Failed to find " ++ p))
    let next ← findPlParentStrict fetch event.authEvents
    let rest ← mainlineWalk fetch fuel next
    pure (p :: rest)

/-- `get_mainline_depth` (lib.rs:591-622): walk the event's power-levels
ancestry until a mainline member is hit (returning its depth) or the
ancestry ends (returning 0); any unfetchable auth parent met on the way is
`NotFound`. -/
def getMainlineDepth (fetch : Id → Option Event) (mainlineMap : List (Id × Nat)) :
    Nat → Option Event → Except Error Nat
  | _, none => .ok 0
  | 0, some _ => .error .fuelExhausted
  | fuel + 1, some sortEv =>
    match (mainlineMap.find? (fun p => decide (p.1 = sortEv.eventId))).map Prod.snd with
    | some depth => .ok depth
    | none => do
      let next ← findPlParentStrict fetch sortEv.authEvents
      getMainlineDepth fetch mainlineMap fuel (next.bind fetch)

/-- Rust `Option<T>` ordering: `None` sorts before `Some`. -/
def optNatLt : Option Nat → Option Nat → Bool
  | none, none => false
  | none, some _ => true
  | some _, none => false
  | some a, some b => decide (a < b)

/-- The `sort_by_key` order of `mainline_sort` (lib.rs:581-584): compare
`(depth, origin_server_ts, event_id)` tuples lexicographically. -/
def depthKeyLe (a b : Nat × Option Nat × Id) : Bool :=
  if a.1 = b.1 then
    if a.2.1 = b.2.1 then idLe a.2.2 b.2.2
    else optNatLt a.2.1 b.2.1
  else decide (a.1 < b.1)

/-- `mainline_sort` (lib.rs:513-587): walk the mainline from the resolved
power-levels event, index it from the root, key each sortable event by
`(mainline depth, origin_server_ts, event_id)` and sort ascending. An event
that cannot be fetched, or whose depth computation fails, is dropped from
the order map (lib.rs:562-574). Empty input short-circuits before the walk.
`mainlineMapOf` is the `mainline_map` of lib.rs:554-559: the walked mainline
reversed and indexed from the root. -/
def mainlineMapOf (mainline : List Id) : List (Id × Nat) :=
  mainline.reverse.enum.map (fun p => (p.2, p.1))

def mainlineSort (fuel : Nat) (toSort : List Id) (resolvedPowerLevel : Option Id)
    (fetch : Id → Option Event) : Except Error (List Id) :=
  if toSort.isEmpty then .ok []
  else do
    let mainline ← mainlineWalk fetch fuel resolvedPowerLevel
    let mainlineMap := mainlineMapOf mainline
    let orderMap := toSort.filterMap (fun evId =>
      match fetch evId with
      | none => none
      | some event =>
        match getMainlineDepth fetch mainlineMap fuel (some event) with
        | .error _ => none
        | .ok depth =>
          some (evId, (depth, (fetch evId).map Event.originServerTs, evId)))
    pure ((sortBy (fun a b => depthKeyLe a.2 b.2) orderMap).map Prod.fst)

/-- `all_conflicted` of `resolve` (lib.rs:90-99): the auth-chain diff chained
with all conflicted values, filtered by `event_exists`, collected as a set. -/
def allConflictedOf (stateSets : List (StMap Id)) (authChainSets : List (List Id))
    (eventExists : Id → Bool) : List Id :=
  (canonSet (getAuthChainDiff authChainSets ++ (separate stateSets).2.flatMap Prod.snd)).filter
    eventExists

/-- `resolve` after the unconflicted short-circuit (lib.rs:90-169), as a
function of the unconflicted state and the full conflicted set: extract and
sort the control events (`control_events`, lib.rs:108-112), auth-check them,
mainline-sort the remainder (`events_to_resolve`, lib.rs:132-151, filtered
against the pre-auth sorted controls), auth-check those, then overlay the
unconflicted state; the source's intermediate variables are inlined. -/
def resolveConflicted (fuel : Nat) (roomVersionId : String) (clean : StMap Id)
    (allConflicted : List Id) (fetch : Id → Option Event)
    (authTypesForEvent : AuthTypesFn) (authCheckFn : AuthCheckFn) :
    Except Error (StMap Id) := do
  let sortedControlLevels ← reverseTopologicalPowerSort
    (allConflicted.filter (isPowerEventId fetch)) allConflicted fetch
  let roomVersion ← roomVersionNew roomVersionId
  let resolvedControl ← iterativeAuthCheck roomVersion sortedControlLevels clean fetch
    authTypesForEvent authCheckFn
  let sortedLeftEvents ← mainlineSort fuel
    (allConflicted.filter (fun i => !decide (i ∈ sortedControlLevels)))
    (lookupSM resolvedControl ("m.room.power_levels", "")) fetch
  let resolvedState ← iterativeAuthCheck roomVersion sortedLeftEvents resolvedControl fetch
    authTypesForEvent authCheckFn
  pure (extendSM resolvedState clean)

/-- `resolve` (lib.rs:57-170): separate the state sets; if nothing conflicts
return the unconflicted map untouched, otherwise resolve the full conflicted
set and overlay the unconflicted state last. `fuel` bounds the mainline
walks (see the header comment); `auth_check`, `auth_types_for_event` and the
room-version table live outside `src/` and are taken as parameters per spec
§6.1. -/
def resolve (fuel : Nat) (roomVersionId : String) (stateSets : List (StMap Id))
    (authChainSets : List (List Id)) (fetch : Id → Option Event) (eventExists : Id → Bool)
    (authTypesForEvent : AuthTypesFn) (authCheckFn : AuthCheckFn) :
    Except Error (StMap Id) :=
  if ((separate stateSets).2).isEmpty then .ok (separate stateSets).1
  else
    resolveConflicted fuel roomVersionId (separate stateSets).1
      (allConflictedOf stateSets authChainSets eventExists) fetch authTypesForEvent authCheckFn

/-- Specification predicate for the emission order of Kahn's algorithm: each
element of `l` in turn is a graph node, not previously emitted, whose whole
out-edge set was emitted before it. -/
def OrderOK (g : Graph) : List Id → List Id → Prop
  | _, [] => True
  | emitted, x :: xs =>
    (x ∉ emitted ∧ ∃ es, (x, es) ∈ g ∧ ∀ q ∈ es, q ∈ emitted) ∧ OrderOK g (x :: emitted) xs

/-! ### General helper lemmas -/

theorem lookupSM_some_mem {α : Type} {m : StMap α} {k : StateKey} {v : α}
    (h : lookupSM m k = some v) : (k, v) ∈ m := by
  unfold lookupSM at h
  cases hf : m.find? (fun p => decide (p.1 = k)) with
  | none => rw [hf] at h; cases h
  | some p =>
    rw [hf] at h
    have hm := List.mem_of_find?_eq_some hf
    have hp : p.1 = k := by simpa using List.find?_some hf
    have hv : p.2 = v := by simpa using h
    have hpe : p = (k, v) := Prod.ext_iff.mpr ⟨hp, hv⟩
    rwa [hpe] at hm

theorem mem_lookupSM_some {α : Type} {m : StMap α} {k : StateKey} {v : α}
    (h : (k, v) ∈ m) : ∃ v', lookupSM m k = some v' := by
  unfold lookupSM
  cases hf : m.find? (fun p => decide (p.1 = k)) with
  | none =>
    rw [List.find?_eq_none] at hf
    have hc := hf _ h
    simp at hc
  | some p => exact ⟨p.2, by simp⟩

theorem nodupKeys_val_eq {α : Type} {m : StMap α} (hnd : NodupKeys m)
    {k : StateKey} {v v' : α} (h1 : (k, v) ∈ m) (h2 : (k, v') ∈ m) : v = v' := by
  induction m with
  | nil => cases h1
  | cons p rest ih =>
    unfold NodupKeys at hnd
    rw [List.map_cons, List.nodup_cons] at hnd
    rcases List.mem_cons.mp h1 with e1 | e1 <;> rcases List.mem_cons.mp h2 with e2 | e2
    · have : (k, v) = ((k, v') : StateKey × α) := e1.trans e2.symm
      exact congrArg Prod.snd this
    · have hk2 : k ∈ rest.map Prod.fst := List.mem_map_of_mem Prod.fst e2
      have : p.1 = k := congrArg Prod.fst e1.symm
      exact absurd (this ▸ hk2) hnd.1
    · have hk1 : k ∈ rest.map Prod.fst := List.mem_map_of_mem Prod.fst e1
      have : p.1 = k := congrArg Prod.fst e2.symm
      exact absurd (this ▸ hk1) hnd.1
    · exact ih hnd.2 e1 e2

theorem lookupSM_some_of_mem_nodup {α : Type} {m : StMap α} (hnd : NodupKeys m)
    {k : StateKey} {v : α} (h : (k, v) ∈ m) : lookupSM m k = some v := by
  obtain ⟨v', hv'⟩ := mem_lookupSM_some h
  have hmem := lookupSM_some_mem hv'
  rw [hv', nodupKeys_val_eq hnd hmem h]

theorem lookupSM_none_iff {α : Type} {m : StMap α} {k : StateKey} :
    lookupSM m k = none ↔ k ∉ keysOf m := by
  unfold lookupSM keysOf
  constructor
  · intro h hk
    obtain ⟨⟨k', v⟩, hm, hk'⟩ := List.mem_map.mp hk
    cases hf : m.find? (fun p => decide (p.1 = k)) with
    | none =>
      rw [List.find?_eq_none] at hf
      exact hf _ hm (by simpa using hk')
    | some p => simp [hf] at h
  · intro hk
    cases hf : m.find? (fun p => decide (p.1 = k)) with
    | none => simp
    | some p =>
      have hm := List.mem_of_find?_eq_some hf
      have hp := List.find?_some hf
      exact absurd (List.mem_map.mpr ⟨p, hm, by simpa using hp⟩) hk

/-- Lookup in a map built by `filterMap` over a duplicate-free key list with
a key-preserving producer. -/
theorem lookupSM_filterMap_keyed {β : Type} {ks : List StateKey} (hnd : ks.Nodup)
    (f : StateKey → Option (StateKey × β))
    (hf : ∀ a ∈ ks, ∀ b, f a = some b → b.1 = a) (k : StateKey) :
    lookupSM (ks.filterMap f) k = if k ∈ ks then (f k).map Prod.snd else none := by
  induction ks with
  | nil => simp [lookupSM]
  | cons a ks ih =>
    rw [List.nodup_cons] at hnd
    have hfa := hf a (List.mem_cons_self a ks)
    have ih' := ih hnd.2 (fun x hx => hf x (List.mem_cons_of_mem a hx))
    rw [List.filterMap_cons]
    cases hfav : f a with
    | none =>
      rw [ih']
      by_cases hk : k = a
      · subst hk
        simp [hnd.1, hfav]
      · simp only [List.mem_cons]
        rcases Classical.em (k ∈ ks) with h | h <;> simp [h, hk]
    | some b =>
      have hb : b.1 = a := hfa b hfav
      obtain ⟨b1, b2⟩ := b
      simp only at hb
      subst hb
      by_cases hk : k = b1
      · subst hk
        simp [lookupSM, hfav]
      · have hstep : lookupSM ((b1, b2) :: ks.filterMap f) k = lookupSM (ks.filterMap f) k := by
          unfold lookupSM
          rw [List.find?_cons_of_neg _ (by simpa using Ne.symm hk)]
        rw [hstep, ih']
        simp only [List.mem_cons]
        rcases Classical.em (k ∈ ks) with h | h <;> simp [h, hk]

theorem allEqual_iff {α : Type} [DecidableEq α] {l : List α} :
    allEqual l = true ↔ ∀ x ∈ l, ∀ y ∈ l, x = y := by
  cases l with
  | nil => simp [allEqual]
  | cons a l =>
    simp only [allEqual, List.all_eq_true, decide_eq_true_eq]
    constructor
    · intro h x hx y hy
      have hax : x = a := by
        rcases List.mem_cons.mp hx with h' | h'
        · exact h'
        · exact h x h'
      have hay : y = a := by
        rcases List.mem_cons.mp hy with h' | h'
        · exact h'
        · exact h y h'
      rw [hax, hay]
    · intro h x hx
      exact h x (List.mem_cons_of_mem a hx) a (List.mem_cons_self a l)

theorem getLast?_of_allEqual {α : Type} [DecidableEq α] {l : List α} {x : α}
    (h : allEqual l = true) (hx : x ∈ l) : l.getLast? = some x := by
  have hne : l ≠ [] := by rintro rfl; cases hx
  rw [List.getLast?_eq_getLast l hne]
  exact congrArg some (allEqual_iff.mp h _ (List.getLast_mem hne) x hx)

theorem insertSorted_perm {α : Type} (le : α → α → Bool) (a : α) (l : List α) :
    (insertSorted le a l).Perm (a :: l) := by
  induction l with
  | nil => exact List.Perm.refl _
  | cons b bs ih =>
    unfold insertSorted
    by_cases h : le a b
    · rw [if_pos h]
    · rw [if_neg h]
      exact (ih.cons b).trans (List.Perm.swap a b bs)

theorem sortBy_perm {α : Type} (le : α → α → Bool) (l : List α) :
    (sortBy le l).Perm l := by
  induction l with
  | nil => exact List.Perm.refl _
  | cons a as ih => exact (insertSorted_perm le a (sortBy le as)).trans (ih.cons a)

theorem mem_canonSet {l : List Id} {x : Id} : x ∈ canonSet l ↔ x ∈ l := by
  unfold canonSet
  rw [(sortBy_perm strLe l.dedup).mem_iff, List.mem_dedup]

theorem canonSet_nodup (l : List Id) : (canonSet l).Nodup :=
  ((sortBy_perm strLe l.dedup).nodup_iff).mpr (List.nodup_dedup l)

theorem mem_canonKeys {l : List StateKey} {x : StateKey} : x ∈ canonKeys l ↔ x ∈ l := by
  unfold canonKeys
  rw [(sortBy_perm keyLe l.dedup).mem_iff, List.mem_dedup]

theorem canonKeys_nodup (l : List StateKey) : (canonKeys l).Nodup :=
  ((sortBy_perm keyLe l.dedup).nodup_iff).mpr (List.nodup_dedup l)

/-! ### `separate` lemmas -/

theorem separate_clean_lookup {α : Type} [DecidableEq α] (sets : List (StMap α)) (k : StateKey) :
    lookupSM (separate sets).1 k =
      if k ∈ sets.flatMap keysOf then
        (if allEqual (collectVals sets k) then (collectVals sets k).getLast?.join else none)
      else none := by
  have hf : ∀ a ∈ canonKeys (sets.flatMap keysOf), ∀ b : StateKey × α,
      (if allEqual (collectVals sets a) then
        (collectVals sets a).getLast?.join.map (fun v => (a, v)) else none) = some b →
      b.1 = a := by
    intro a _ b hb
    split at hb
    · rcases Option.map_eq_some'.mp hb with ⟨v, _, he⟩
      rw [← he]
    · cases hb
  have hrw := lookupSM_filterMap_keyed (canonKeys_nodup (sets.flatMap keysOf))
    (fun a => if allEqual (collectVals sets a) then
      (collectVals sets a).getLast?.join.map (fun v => (a, v)) else none) hf k
  unfold separate
  dsimp only
  rw [hrw]
  by_cases hk : k ∈ sets.flatMap keysOf
  · rw [if_pos (mem_canonKeys.mpr hk), if_pos hk]
    by_cases ha : allEqual (collectVals sets k)
    · rw [if_pos ha, if_pos ha]
      cases (collectVals sets k).getLast?.join <;> rfl
    · rw [if_neg ha, if_neg ha]
      rfl
  · rw [if_neg (fun h => hk (mem_canonKeys.mp h)), if_neg hk]

theorem separate_conf_lookup {α : Type} [DecidableEq α] (sets : List (StMap α)) (k : StateKey) :
    lookupSM (separate sets).2 k =
      if k ∈ sets.flatMap keysOf then
        (if allEqual (collectVals sets k) then none
         else some ((collectVals sets k).filterMap id))
      else none := by
  have hf : ∀ a ∈ canonKeys (sets.flatMap keysOf), ∀ b : StateKey × List α,
      (if allEqual (collectVals sets a) then none
        else some (a, (collectVals sets a).filterMap id)) = some b →
      b.1 = a := by
    intro a _ b hb
    split at hb
    · cases hb
    · cases hb
      rfl
  have hrw := lookupSM_filterMap_keyed (canonKeys_nodup (sets.flatMap keysOf))
    (fun a => if allEqual (collectVals sets a) then none
      else some (a, (collectVals sets a).filterMap id)) hf k
  unfold separate
  dsimp only
  rw [hrw]
  by_cases hk : k ∈ sets.flatMap keysOf
  · rw [if_pos (mem_canonKeys.mpr hk), if_pos hk]
    by_cases ha : allEqual (collectVals sets k)
    · rw [if_pos ha, if_pos ha]
      rfl
    · rw [if_neg ha, if_neg ha]
      rfl
  · rw [if_neg (fun h => hk (mem_canonKeys.mp h)), if_neg hk]

theorem lookupSM_some_key_mem_flatMap {α : Type} {sets : List (StMap α)} {m : StMap α}
    {k : StateKey} {v : α} (hm : m ∈ sets) (h : lookupSM m k = some v) :
    k ∈ sets.flatMap keysOf := by
  have := lookupSM_some_mem h
  exact List.mem_flatMap.mpr ⟨m, hm, List.mem_map.mpr ⟨(k, v), this, rfl⟩⟩

/-! ### Claim C3 -/

/-- C3: for every key appearing in at least one input state map, `separate`
places the key in the unconflicted map with the common value exactly when
every input map contains the key with that same value; otherwise the key
goes to the conflicted map, paired with the list of values from the inputs
that do contain it, in input order (absences dropped, duplicates preserved).
In particular, a key present in one input and absent in another is
conflicted. -/
theorem separate_classification {α : Type} [DecidableEq α] (sets : List (StMap α))
    (k : StateKey) (hk : ∃ m ∈ sets, ∃ v, lookupSM m k = some v) :
    (∀ v : α, (∀ m ∈ sets, lookupSM m k = some v) →
        lookupSM (separate sets).1 k = some v ∧ lookupSM (separate sets).2 k = none)
    ∧ (¬ (∃ v : α, ∀ m ∈ sets, lookupSM m k = some v) →
        lookupSM (separate sets).1 k = none ∧
          lookupSM (separate sets).2 k =
            some ((sets.map (fun m => lookupSM m k)).filterMap id)) := by
  obtain ⟨m₀, hm₀, v₀, hv₀⟩ := hk
  have hkmem : k ∈ sets.flatMap keysOf := lookupSM_some_key_mem_flatMap hm₀ hv₀
  constructor
  · intro v hv
    have hvals : ∀ x ∈ collectVals sets k, x = some v := by
      intro x hx
      obtain ⟨m, hm, he⟩ := List.mem_map.mp hx
      rw [← he]
      exact hv m hm
    have hae : allEqual (collectVals sets k) = true :=
      allEqual_iff.mpr (fun x hx y hy => (hvals x hx).trans (hvals y hy).symm)
    have hmem : (some v) ∈ collectVals sets k :=
      List.mem_map.mpr ⟨m₀, hm₀, hv m₀ hm₀⟩
    have hlast : (collectVals sets k).getLast? = some (some v) :=
      getLast?_of_allEqual hae hmem
    refine ⟨?_, ?_⟩
    · rw [separate_clean_lookup, if_pos hkmem, if_pos hae, hlast]
      rfl
    · rw [separate_conf_lookup, if_pos hkmem, if_pos hae]
  · intro hne
    have hae : allEqual (collectVals sets k) = false := by
      rcases Bool.eq_false_or_eq_true (allEqual (collectVals sets k)) with h | h
      · have hall := allEqual_iff.mp h
        have hmem0 : (some v₀) ∈ collectVals sets k := List.mem_map.mpr ⟨m₀, hm₀, hv₀⟩
        exact absurd ⟨v₀, fun m hm =>
          hall _ (List.mem_map.mpr ⟨m, hm, rfl⟩) _ hmem0⟩ hne
      · exact h
    refine ⟨?_, ?_⟩
    · rw [separate_clean_lookup, if_pos hkmem, if_neg (by simp [hae])]
    · rw [separate_conf_lookup, if_pos hkmem, if_neg (by simp [hae])]
      rfl

/-- Witness for C3: two concrete inputs; the first maps the key to `"a"`,
the second lacks it, so the key is conflicted with value list `["a"]`. -/
theorem separate_classification_witness :
    lookupSM (separate (α := Id) [[(("m.room.topic", ""), "a")], []]).1
        ("m.room.topic", "") = none ∧
      lookupSM (separate (α := Id) [[(("m.room.topic", ""), "a")], []]).2
        ("m.room.topic", "") = some ["a"] := by
  have h := (separate_classification (α := Id) [[(("m.room.topic", ""), "a")], []]
    ("m.room.topic", "")
    ⟨[(("m.room.topic", ""), "a")], by simp, "a", by decide⟩).2
    (by
      rintro ⟨v, hv⟩
      have := hv [] (by simp)
      simp [lookupSM] at this)
  exact ⟨h.1, by rw [h.2]; rfl⟩

/-! ### Claim C8 -/

/-- C8: `is_power_event` holds exactly when either the event's type is
power-levels, join-rules or create with the empty state key, or it is a
member event whose content parses with membership `leave` or `ban` and whose
sender differs from its state key; a self-leave (sender equal to state key)
is not a power event. -/
theorem isPowerEvent_spec (ev : Event) :
    isPowerEvent ev = true ↔
      ((ev.eventType = "m.room.power_levels" ∨ ev.eventType = "m.room.join_rules" ∨
          ev.eventType = "m.room.create") ∧ ev.stateKey = some "")
      ∨ (ev.eventType = "m.room.member" ∧
          ∃ mem, parseMemberContent ev.content = some mem ∧
            (mem = Membership.leave ∨ mem = Membership.ban) ∧
            some ev.sender ≠ ev.stateKey) := by
  unfold isPowerEvent
  by_cases h1 : ev.eventType = "m.room.power_levels" ∨ ev.eventType = "m.room.join_rules" ∨
      ev.eventType = "m.room.create"
  · rw [if_pos h1]
    have hnm : ¬ ev.eventType = "m.room.member" := by
      rcases h1 with h | h | h <;> rw [h] <;> decide
    simp [h1, hnm]
  · rw [if_neg h1]
    by_cases h2 : ev.eventType = "m.room.member"
    · rw [if_pos h2]
      cases hc : parseMemberContent ev.content with
      | none =>
        dsimp only
        constructor
        · intro hd
          cases hd
        · rintro (⟨hl, _⟩ | ⟨_, m', hm', _, _⟩)
          · exact absurd hl h1
          · cases hm'
      | some m =>
        dsimp only
        by_cases h3 : m = Membership.leave ∨ m = Membership.ban
        · rw [if_pos h3]
          constructor
          · intro hd
            exact Or.inr ⟨h2, m, rfl, h3, of_decide_eq_true hd⟩
          · rintro (⟨hl, _⟩ | ⟨_, m', hm', h3', hne⟩)
            · exact absurd hl h1
            · exact decide_eq_true hne
        · rw [if_neg h3]
          constructor
          · intro hd
            cases hd
          · rintro (⟨hl, _⟩ | ⟨_, m', hm', h3', _⟩)
            · exact absurd hl h1
            · injection hm' with hm''
              subst hm''
              exact absurd h3' h3
    · rw [if_neg h2]
      constructor
      · intro hd
        cases hd
      · rintro (⟨hl, _⟩ | ⟨hl, _⟩)
        · exact absurd hl h1
        · exact absurd hl h2

/-! ### Claims C2 and C10: error behavior of the auth passes -/

theorem exceptBind_ok {ε α β : Type} (a : α) (f : α → Except ε β) :
    (Except.ok a >>= f : Except ε β) = f a := rfl

theorem exceptBind_error {ε α β : Type} (e : ε) (f : α → Except ε β) :
    ((Except.error e : Except ε α) >>= f) = Except.error e := rfl

theorem checkOne_missing_event {rv : RoomVersion} {fetch : Id → Option Event}
    {aty : AuthTypesFn} {ac : AuthCheckFn} {s : StMap Id} {e : Id} (he : fetch e = none) :
    checkOne rv fetch aty ac s e = .error (.notFound ("Failed to find " ++ e)) := by
  unfold checkOne orThrow
  rw [he]
  rfl

theorem iterativeAuthCheck_reaches (rv : RoomVersion) (l₁ l₂ : List Id) (e : Id)
    (s₀ s : StMap Id) (fetch : Id → Option Event) (aty : AuthTypesFn) (ac : AuthCheckFn)
    (h : iterativeAuthCheck rv l₁ s₀ fetch aty ac = .ok s) {r : Except Error (StMap Id)}
    (hstep : checkOne rv fetch aty ac s e = r) (herr : r.isOk = false) :
    iterativeAuthCheck rv (l₁ ++ e :: l₂) s₀ fetch aty ac = r := by
  unfold iterativeAuthCheck at h ⊢
  rw [List.foldlM_append, h]
  show (checkOne rv fetch aty ac s e >>= fun init => List.foldlM _ init l₂) = r
  rw [hstep]
  cases r with
  | ok v => simp [Except.isOk, Except.toBool] at herr
  | error err => rfl

theorem gatherAuthEvents_malformed {fetch : Id → Option Event} {aids : List Id} {aid : Id}
    {aev : Event} (hmem : aid ∈ aids) (ha : fetch aid = some aev) (hsk : aev.stateKey = none) :
    ∀ m, gatherAuthEvents fetch m aids = .error (.invalidPdu "State event had no state key") := by
  induction aids with
  | nil => cases hmem
  | cons x rest ih =>
    intro m
    rcases List.mem_cons.mp hmem with hx | hx
    · subst hx
      unfold gatherAuthEvents
      rw [ha]
      dsimp only
      rw [hsk]
    · unfold gatherAuthEvents
      cases hfx : fetch x with
      | none => exact ih hx m
      | some ev =>
        dsimp only
        cases hevk : ev.stateKey with
        | none => rfl
        | some sk => exact ih hx _

/-- C2 (as amended): the exact missing-event behavior of the two auth-related
passes. (1) Failing to fetch the event *being checked* during
`iterative_auth_check` aborts the run with `NotFound`. (2) Failing to fetch
the resolved power-levels tip while walking the mainline inside
`mainline_sort` aborts with `NotFound`, as does (3) failing to fetch any
auth parent inspected during that walk's power-levels search. By contrast,
(4) an id listed in a checked event's `auth_events` that cannot be fetched
is skipped with a warning while assembling the auth context — it does not
abort — and (5) a fetch failure inside an individual event's mainline-depth
computation merely drops that event from the mainline sort's output, with
the sort still succeeding. -/
theorem missing_event_error_behavior :
    (∀ (rv : RoomVersion) (l₁ l₂ : List Id) (e : Id) (s₀ s : StMap Id)
        (fetch : Id → Option Event) (aty : AuthTypesFn) (ac : AuthCheckFn),
      iterativeAuthCheck rv l₁ s₀ fetch aty ac = .ok s → fetch e = none →
      iterativeAuthCheck rv (l₁ ++ e :: l₂) s₀ fetch aty ac =
        .error (.notFound ("Failed to find " ++ e)))
    ∧ (∀ (fuel : Nat) (toSort : List Id) (p : Id) (fetch : Id → Option Event),
      toSort ≠ [] → fetch p = none →
      mainlineSort (fuel + 1) toSort (some p) fetch =
        .error (.notFound ("Failed to find " ++ p)))
    ∧ (∀ (fetch : Id → Option Event) (aid : Id) (rest : List Id),
      fetch aid = none →
      findPlParentStrict fetch (aid :: rest) = .error (.notFound ("Failed to find " ++ aid)))
    ∧ (∀ (fetch : Id → Option Event) (m : StMap Event) (aid : Id) (rest : List Id),
      fetch aid = none →
      gatherAuthEvents fetch m (aid :: rest) = gatherAuthEvents fetch m rest)
    ∧ (∀ (fuel : Nat) (toSort : List Id) (mpl : Option Id) (fetch : Id → Option Event)
        (ml : List Id) (i : Id),
      mainlineWalk fetch fuel mpl = .ok ml →
      (∀ ev, fetch i = some ev →
        ∃ err, getMainlineDepth fetch (mainlineMapOf ml) fuel (some ev) = .error err) →
      ∃ l, mainlineSort fuel toSort mpl fetch = .ok l ∧ i ∉ l) := by
  refine ⟨?_, ?_, ?_, ?_, ?_⟩
  · intro rv l₁ l₂ e s₀ s fetch aty ac h he
    exact iterativeAuthCheck_reaches rv l₁ l₂ e s₀ s fetch aty ac h
      (checkOne_missing_event he) rfl
  · intro fuel toSort p fetch ht hp
    unfold mainlineSort
    rw [if_neg (by simpa using ht)]
    unfold mainlineWalk orThrow
    rw [hp]
    rfl
  · intro fetch aid rest ha
    unfold findPlParentStrict
    rw [ha]
  · intro fetch m aid rest ha
    conv_lhs => unfold gatherAuthEvents
    rw [ha]
  · intro fuel toSort mpl fetch ml i hw hdrop
    unfold mainlineSort
    by_cases ht : toSort.isEmpty
    · rw [if_pos ht]
      exact ⟨[], rfl, by simp⟩
    · rw [if_neg ht]
      rw [show (mainlineWalk fetch fuel mpl) = .ok ml from hw]
      refine ⟨_, rfl, ?_⟩
      intro hi
      obtain ⟨q, hq, hqe⟩ := List.mem_map.mp hi
      have hq' := (sortBy_perm _ _).mem_iff.mp hq
      obtain ⟨j, _, hfm⟩ := List.mem_filterMap.mp hq'
      cases hfj : fetch j with
      | none =>
        rw [hfj] at hfm
        cases hfm
      | some ev =>
        rw [hfj] at hfm
        dsimp only at hfm
        cases hd : getMainlineDepth fetch (mainlineMapOf ml) fuel (some ev) with
        | error err =>
          rw [hd] at hfm
          cases hfm
        | ok depth =>
          rw [hd] at hfm
          dsimp only at hfm
          cases hfm
          have hji : j = i := hqe
          subst hji
          obtain ⟨err, herr⟩ := hdrop ev hfj
          rw [herr] at hd
          cases hd

/-- Witness for C2's amended theorem: each conjunct applied at a concrete
input. A single event `"e"` whose only auth parent `"missing"` cannot be
fetched still resolves, while a missing checked event or mainline tip
aborts with `NotFound`. -/
theorem missing_event_error_behavior_witness :
    iterativeAuthCheck "6" ([] ++ "e" :: []) [] (fun _ => none)
        (fun _ _ _ _ => .ok []) (fun _ _ _ _ => .ok true) =
      .error (.notFound ("Failed to find " ++ "e"))
    ∧ mainlineSort 4 ["x"] (some "p") (fun _ => none) =
      .error (.notFound ("Failed to find " ++ "p"))
    ∧ findPlParentStrict (fun _ => none) ["q"] = .error (.notFound ("Failed to find " ++ "q"))
    ∧ gatherAuthEvents (fun _ => none) [] ["r", "s"] =
      gatherAuthEvents (fun _ => none) [] ["s"]
    ∧ ∃ l, mainlineSort 3 ["z"] none (fun _ => none) = .ok l ∧ "z" ∉ l := by
  refine ⟨?_, ?_, ?_, ?_, ?_⟩
  · exact missing_event_error_behavior.1 "6" [] [] "e" [] [] (fun _ => none)
      (fun _ _ _ _ => .ok []) (fun _ _ _ _ => .ok true) rfl rfl
  · exact missing_event_error_behavior.2.1 3 ["x"] "p" (fun _ => none) (by decide) rfl
  · exact missing_event_error_behavior.2.2.1 (fun _ => none) "q" [] rfl
  · exact missing_event_error_behavior.2.2.2.1 (fun _ => none) [] "r" ["s"] rfl
  · exact missing_event_error_behavior.2.2.2.2 3 ["z"] none (fun _ => none) [] "z" rfl
      (fun ev hev => by cases hev)

/-- Counterexample to C2 as stated: during iterative auth check, an id
listed in the checked event's `auth_events` that cannot be fetched does
*not* abort the resolution with `NotFound`; the event is checked anyway and
the pass returns a result. Here `"e"` lists the unfetchable `"missing"` as
its auth parent, yet `iterative_auth_check` succeeds. -/
theorem missing_auth_parent_no_abort_cex :
    (fun i => if i = "e" then
        some (Event.mk "e" "m.room.topic" (some "") "@alice:x" Content.otherContent
          ["missing"] 1)
      else none) "missing" = none
    ∧ "missing" ∈ ["missing"]
    ∧ iterativeAuthCheck "6" ["e"] []
        (fun i => if i = "e" then
          some (Event.mk "e" "m.room.topic" (some "") "@alice:x" Content.otherContent
            ["missing"] 1)
        else none)
        (fun _ _ _ _ => .ok []) (fun _ _ _ _ => .ok true) =
      .ok [(("m.room.topic", ""), "e")] := by
  refine ⟨by rfl, by decide, by rfl⟩

theorem checkOne_malformed_auth_parent {rv : RoomVersion} {fetch : Id → Option Event}
    {aty : AuthTypesFn} {ac : AuthCheckFn} {s : StMap Id} {e : Id} {ev aev : Event}
    {sk : String} {aid : Id} (he : fetch e = some ev) (hsk : ev.stateKey = some sk)
    (haid : aid ∈ ev.authEvents) (ha : fetch aid = some aev) (hask : aev.stateKey = none) :
    checkOne rv fetch aty ac s e = .error (.invalidPdu "State event had no state key") := by
  unfold checkOne orThrow
  rw [he]
  simp only [exceptBind_ok]
  rw [hsk]
  simp only [exceptBind_ok]
  rw [gatherAuthEvents_malformed haid ha hask []]
  rfl

/-- C10: during `iterative_auth_check`, if any id listed in a checked
event's `auth_events` fetches to an event that itself has no state key, the
whole pass aborts with `InvalidPdu` — for every auth-types helper and every
auth-check black box, i.e. even when that parent would not have mattered for
the authorization decision. -/
theorem iterativeAuthCheck_malformed_auth_parent (rv : RoomVersion) (l₁ l₂ : List Id)
    (e : Id) (s₀ s : StMap Id) (fetch : Id → Option Event) (aty : AuthTypesFn)
    (ac : AuthCheckFn) (ev aev : Event) (sk : String) (aid : Id)
    (h : iterativeAuthCheck rv l₁ s₀ fetch aty ac = .ok s)
    (he : fetch e = some ev) (hsk : ev.stateKey = some sk) (haid : aid ∈ ev.authEvents)
    (ha : fetch aid = some aev) (hask : aev.stateKey = none) :
    iterativeAuthCheck rv (l₁ ++ e :: l₂) s₀ fetch aty ac =
      .error (.invalidPdu "State event had no state key") :=
  iterativeAuthCheck_reaches rv l₁ l₂ e s₀ s fetch aty ac h
    (checkOne_malformed_auth_parent he hsk haid ha hask) rfl

/-- Witness for C10: the checked event `"e"` is a well-formed state event,
its auth parent `"a"` fetches to an event without a state key, and the pass
aborts with `InvalidPdu`. -/
theorem iterativeAuthCheck_malformed_auth_parent_witness :
    iterativeAuthCheck "6" ([] ++ "e" :: []) []
        (fun i => if i = "e" then
          some (Event.mk "e" "m.room.topic" (some "") "@alice:x" Content.otherContent ["a"] 1)
        else if i = "a" then
          some (Event.mk "a" "m.room.message" none "@alice:x" Content.otherContent [] 0)
        else none)
        (fun _ _ _ _ => .ok []) (fun _ _ _ _ => .ok true) =
      .error (.invalidPdu "State event had no state key") :=
  iterativeAuthCheck_malformed_auth_parent "6" [] [] "e" [] [] _
    (fun _ _ _ _ => .ok []) (fun _ _ _ _ => .ok true)
    (Event.mk "e" "m.room.topic" (some "") "@alice:x" Content.otherContent ["a"] 1)
    (Event.mk "a" "m.room.message" none "@alice:x" Content.otherContent [] 0)
    "" "a" rfl (by decide) rfl (by decide) (by decide) rfl

/-! ### Claims C4 and C9: the lexicographical topological sort -/

theorem availNodes_mem {g : Graph} {emitted : List Id} {n : Id} :
    n ∈ availNodes g emitted ↔
      ∃ es, (n, es) ∈ g ∧ n ∉ emitted ∧ ∀ q ∈ es, q ∈ emitted := by
  unfold availNodes
  rw [List.mem_filterMap]
  constructor
  · rintro ⟨⟨a, es⟩, hmem, hf⟩
    dsimp only at hf
    by_cases h1 : a ∈ emitted
    · rw [if_pos h1] at hf
      cases hf
    · rw [if_neg h1] at hf
      by_cases h2 : ∀ q ∈ es, q ∈ emitted
      · rw [if_pos h2] at hf
        injection hf with hf
        subst hf
        exact ⟨es, hmem, h1, h2⟩
      · rw [if_neg h2] at hf
        cases hf
  · rintro ⟨es, hmem, h1, h2⟩
    exact ⟨(n, es), hmem, by dsimp only; rw [if_neg h1, if_pos h2]⟩

theorem graph_es_unique {g : Graph} (hnd : (graphKeys g).Nodup) {n : Id} {es es' : List Id}
    (h1 : (n, es) ∈ g) (h2 : (n, es') ∈ g) : es = es' := by
  induction g with
  | nil => cases h1
  | cons p rest ih =>
    unfold graphKeys at hnd ih
    rw [List.map_cons, List.nodup_cons] at hnd
    rcases List.mem_cons.mp h1 with e1 | e1 <;> rcases List.mem_cons.mp h2 with e2 | e2
    · exact congrArg Prod.snd (e1.trans e2.symm)
    · have hp : p.1 = n := congrArg Prod.fst e1.symm
      exact absurd (hp ▸ List.mem_map_of_mem Prod.fst e2) hnd.1
    · have hp : p.1 = n := congrArg Prod.fst e2.symm
      exact absurd (hp ▸ List.mem_map_of_mem Prod.fst e1) hnd.1
    · exact ih hnd.2 e1 e2

theorem mem_graphKeys_entry {g : Graph} {n : Id} (h : n ∈ graphKeys g) :
    ∃ es, (n, es) ∈ g := by
  obtain ⟨p, hp, he⟩ := List.mem_map.mp h
  exact ⟨p.2, by rwa [show (n, p.2) = p from Prod.ext_iff.mpr ⟨he.symm, rfl⟩]⟩

theorem exists_min_on_list (f : Id → Nat) :
    ∀ (l : List Id), l ≠ [] → ∃ a ∈ l, ∀ b ∈ l, f a ≤ f b := by
  intro l
  induction l with
  | nil => intro h; exact absurd rfl h
  | cons x xs ih =>
    intro _
    cases xs with
    | nil =>
      refine ⟨x, List.mem_cons_self x [], ?_⟩
      intro b hb
      rcases List.mem_cons.mp hb with h | h
      · rw [h]
      · cases h
    | cons y ys =>
      obtain ⟨a, ha, hmin⟩ := ih (List.cons_ne_nil y ys)
      by_cases hfa : f a ≤ f x
      · refine ⟨a, List.mem_cons_of_mem x ha, ?_⟩
        intro b hb
        rcases List.mem_cons.mp hb with h | h
        · rw [h]; exact hfa
        · exact hmin b h
      · refine ⟨x, List.mem_cons_self x (y :: ys), ?_⟩
        intro b hb
        rcases List.mem_cons.mp hb with h | h
        · rw [h]
        · exact le_trans (le_of_not_le hfa) (hmin b h)

/-- With an acyclic, key-closed graph, some node is always available while
any graph node remains unemitted (the infinite-descent argument behind
"every node must be reachable by the decrement process"). -/
theorem avail_nonempty {g : Graph} (hclosed : ∀ p ∈ g, ∀ q ∈ p.2, q ∈ graphKeys g)
    {f : Id → Nat} (hf : ∀ p ∈ g, ∀ q ∈ p.2, f q < f p.1) {emitted : List Id}
    {n : Id} (hn : n ∈ graphKeys g) (hne : n ∉ emitted) :
    availNodes g emitted ≠ [] := by
  have hU : n ∈ (graphKeys g).filter (fun x => decide (x ∉ emitted)) :=
    List.mem_filter.mpr ⟨hn, by simpa using hne⟩
  obtain ⟨u, hu, humin⟩ := exists_min_on_list f
    ((graphKeys g).filter (fun x => decide (x ∉ emitted)))
    (by intro h; rw [h] at hU; cases hU)
  have hu' := List.mem_filter.mp hu
  have huk : u ∈ graphKeys g := hu'.1
  have hue : u ∉ emitted := by simpa using hu'.2
  obtain ⟨es, hes⟩ := mem_graphKeys_entry huk
  have hq : ∀ q ∈ es, q ∈ emitted := by
    intro q hqe
    by_contra hqne
    have hqk : q ∈ graphKeys g := hclosed (u, es) hes q hqe
    have hqU : q ∈ (graphKeys g).filter (fun x => decide (x ∉ emitted)) :=
      List.mem_filter.mpr ⟨hqk, by simpa using hqne⟩
    exact absurd (humin q hqU) (not_le_of_lt (hf (u, es) hes q hqe))
  intro hav
  have : u ∈ availNodes g emitted := availNodes_mem.mpr ⟨es, hes, hue, hq⟩
  rw [hav] at this
  cases this

theorem foldlMin_mem {α : Type} (lt : α → α → Bool) :
    ∀ (xs : List α) (acc : α),
      xs.foldl (fun acc y => if lt y acc then y else acc) acc ∈ acc :: xs := by
  intro xs
  induction xs with
  | nil => intro acc; exact List.mem_cons_self acc []
  | cons y ys ih =>
    intro acc
    by_cases h : lt y acc
    · have := ih y
      simp only [List.foldl_cons, if_pos h]
      rcases List.mem_cons.mp this with h' | h'
      · rw [h']
        exact List.mem_cons_of_mem acc (List.mem_cons_self y ys)
      · exact List.mem_cons_of_mem acc (List.mem_cons_of_mem y h')
    · have := ih acc
      simp only [List.foldl_cons, if_neg h]
      rcases List.mem_cons.mp this with h' | h'
      · rw [h']
        exact List.mem_cons_self acc (y :: ys)
      · exact List.mem_cons_of_mem acc (List.mem_cons_of_mem y h')

theorem pickMinBy_mem {α : Type} {lt : α → α → Bool} {l : List α} {x : α}
    (h : pickMinBy lt l = some x) : x ∈ l := by
  cases l with
  | nil => cases h
  | cons a xs =>
    unfold pickMinBy at h
    injection h with h
    rw [← h]
    exact foldlMin_mem lt xs a

theorem mapM_keyed_ok {l : List Id} {keyFn : Id → Except Error (Int × Nat)}
    (h : ∀ n ∈ l, ∃ v, keyFn n = .ok v) :
    ∃ keyed, l.mapM (fun n => (keyFn n).map (fun k => (k, n))) = .ok keyed ∧
      keyed.map Prod.snd = l := by
  induction l with
  | nil => exact ⟨[], rfl, rfl⟩
  | cons x xs ih =>
    obtain ⟨v, hv⟩ := h x (List.mem_cons_self x xs)
    obtain ⟨keyed, hkeq, hmap⟩ := ih (fun n hn => h n (List.mem_cons_of_mem x hn))
    refine ⟨(v, x) :: keyed, ?_, by rw [List.map_cons, hmap]⟩
    rw [List.mapM_cons, hv, hkeq]
    rfl

/-- The heart of Claims C4 and C9: the pop loop always succeeds when the key
function succeeds on the graph's nodes, its output satisfies `OrderOK`, and
if fuel remains at the end then no node was left available. -/
theorem kahnAux_spec (g : Graph) (keyFn : Id → Except Error (Int × Nat))
    (hk : ∀ n ∈ graphKeys g, ∃ v, keyFn n = .ok v) :
    ∀ (fuel : Nat) (emitted : List Id),
      ∃ l, kahnAux g keyFn fuel emitted = .ok l ∧ OrderOK g emitted l ∧
        (l.length < fuel → availNodes g (l.reverse ++ emitted) = []) := by
  intro fuel
  induction fuel with
  | zero =>
    intro emitted
    exact ⟨[], rfl, trivial, fun h => absurd h (by simp)⟩
  | succ fuel ih =>
    intro emitted
    cases hav : availNodes g emitted with
    | nil =>
      refine ⟨[], ?_, trivial, fun _ => by simpa using hav⟩
      unfold kahnAux
      rw [hav]
    | cons a rest =>
      have havsub : ∀ m ∈ availNodes g emitted, m ∈ graphKeys g := by
        intro m hm
        obtain ⟨es, hes, _, _⟩ := availNodes_mem.mp hm
        exact List.mem_map_of_mem Prod.fst hes
      obtain ⟨keyed, hkeq, hmap⟩ := @mapM_keyed_ok (a :: rest) keyFn
        (fun n hn => hk n (havsub n (hav ▸ hn)))
      cases hkd : keyed with
      | nil => rw [hkd] at hmap; cases hmap
      | cons k0 krest =>
        rw [hkd] at hkeq hmap
        have hpick : pickMinBy tbLt (k0 :: krest) =
            some (krest.foldl (fun acc y => if tbLt y acc then y else acc) k0) := rfl
        set best := krest.foldl (fun acc y => if tbLt y acc then y else acc) k0 with hbdef
        have hbmem : best ∈ k0 :: krest := pickMinBy_mem hpick
        have hbav : best.2 ∈ availNodes g emitted := by
          rw [hav, ← hmap]
          exact List.mem_map_of_mem Prod.snd hbmem
        obtain ⟨es, hes, hnotem, hqem⟩ := availNodes_mem.mp hbav
        obtain ⟨tail, htaileq, htailOK, htailav⟩ := ih (best.2 :: emitted)
        refine ⟨best.2 :: tail, ?_, ⟨⟨hnotem, es, hes, hqem⟩, htailOK⟩, ?_⟩
        · unfold kahnAux
          rw [hav]
          dsimp only
          rw [hkeq]
          simp only [exceptBind_ok]
          rw [hpick]
          dsimp only
          rw [htaileq]
          rfl
        · intro hlen
          have := htailav (Nat.lt_of_succ_lt_succ (by simpa using hlen))
          simpa [List.reverse_cons, List.append_assoc] using this

theorem orderOK_props (g : Graph) :
    ∀ (emitted l : List Id), OrderOK g emitted l →
      l.Nodup ∧ (∀ x ∈ l, x ∈ graphKeys g ∧ x ∉ emitted) := by
  intro emitted l
  induction l generalizing emitted with
  | nil => intro _; exact ⟨List.nodup_nil, by simp⟩
  | cons x xs ih =>
    rintro ⟨⟨hxe, es, hes, _⟩, hrest⟩
    obtain ⟨hnd, hprops⟩ := ih (x :: emitted) hrest
    refine ⟨List.nodup_cons.mpr ⟨?_, hnd⟩, ?_⟩
    · intro hx
      exact (hprops x hx).2 (List.mem_cons_self x emitted)
    · intro y hy
      rcases List.mem_cons.mp hy with h | h
      · subst h
        exact ⟨List.mem_map_of_mem Prod.fst hes, hxe⟩
      · obtain ⟨hky, hney⟩ := hprops y h
        exact ⟨hky, fun hm => hney (List.mem_cons_of_mem x hm)⟩

theorem orderOK_sublist (g : Graph) (hnd : (graphKeys g).Nodup) :
    ∀ (emitted l : List Id), OrderOK g emitted l →
      ∀ (n : Id) (es : List Id) (q : Id), (n, es) ∈ g → q ∈ es → n ∈ l → q ∉ emitted →
        [q, n].Sublist l := by
  intro emitted l
  induction l generalizing emitted with
  | nil =>
    intro _ n es q _ _ hn
    cases hn
  | cons x xs ih =>
    rintro ⟨⟨hxe, es', hes', hq'⟩, hrest⟩ n es q hmem hq hn hqe
    by_cases hxn : x = n
    · subst hxn
      have hesu : es' = es := graph_es_unique hnd hes' hmem
      exact absurd (hq' q (hesu ▸ hq)) hqe
    · have hn' : n ∈ xs := by
        rcases List.mem_cons.mp hn with h | h
        · exact absurd h.symm hxn
        · exact h
      by_cases hxq : x = q
      · subst hxq
        exact List.cons_sublist_cons.mpr (List.singleton_sublist.mpr hn')
      · refine List.Sublist.cons x ?_
        refine ih (x :: emitted) hrest n es q hmem hq hn' ?_
        intro hmm
        rcases List.mem_cons.mp hmm with h | h
        · exact hxq h.symm
        · exact hqe h

theorem orderOK_cycle_excluded (g : Graph) (C : List Id)
    (hC : ∀ n ∈ C, ∃ es, (n, es) ∈ g ∧ ∃ q ∈ es, q ∈ C) (hnd : (graphKeys g).Nodup) :
    ∀ (emitted l : List Id), OrderOK g emitted l → (∀ n ∈ C, n ∉ emitted) →
      ∀ n ∈ C, n ∉ l := by
  intro emitted l
  induction l generalizing emitted with
  | nil => simp
  | cons x xs ih =>
    rintro ⟨⟨hxe, es', hes', hq'⟩, hrest⟩ hCe n hn hmem
    have hxC : x ∉ C := by
      intro hx
      obtain ⟨es, hes, q, hqes, hqC⟩ := hC x hx
      have hesu : es' = es := graph_es_unique hnd hes' hes
      exact absurd (hq' q (hesu ▸ hqes)) (hCe q hqC)
    rcases List.mem_cons.mp hmem with h | h
    · exact hxC (h ▸ hn)
    · refine ih (x :: emitted) hrest ?_ n hn h
      intro m hm hmm
      rcases List.mem_cons.mp hmm with h' | h'
      · exact hxC (h' ▸ hm)
      · exact hCe m hm h'

/-- C4: on an acyclic graph whose edges stay within its node set, with a key
function that succeeds on every node, `lexicographical_topological_sort`
succeeds and returns a permutation of the graph's nodes (each exactly once)
in which every out-edge target — an auth ancestor — appears strictly before
the node pointing at it. The model is a function of the graph and key
function alone, popping at each step the unique minimum of the
`(-power_level, timestamp, event_id)` tiebreak among available nodes, so
identical inputs yield the identical output. -/
theorem lexTopoSort_spec (g : Graph) (keyFn : Id → Except Error (Int × Nat))
    (hnd : (graphKeys g).Nodup)
    (hclosed : ∀ p ∈ g, ∀ q ∈ p.2, q ∈ graphKeys g)
    (hacyc : ∃ f : Id → Nat, ∀ p ∈ g, ∀ q ∈ p.2, f q < f p.1)
    (hk : ∀ n ∈ graphKeys g, ∃ v, keyFn n = .ok v) :
    ∃ l, lexicographicalTopologicalSort g keyFn = .ok l ∧ l.Perm (graphKeys g) ∧
      ∀ p ∈ g, ∀ q ∈ p.2, [q, p.1].Sublist l := by
  obtain ⟨f, hf⟩ := hacyc
  obtain ⟨l, heq, hOK, hfin⟩ := kahnAux_spec g keyFn hk g.length []
  obtain ⟨hnodup, hprops⟩ := orderOK_props g [] l hOK
  have hsub : l ⊆ graphKeys g := by
    intro x hx
    exact (hprops x hx).1
  have hperm : l.Perm (graphKeys g) := by
    rcases Nat.lt_or_ge l.length g.length with hlen | hlen
    · have hempty := hfin hlen
      have hkeys : ∀ n ∈ graphKeys g, n ∈ l := by
        intro n hn
        by_contra hnl
        refine avail_nonempty hclosed hf hn ?_ hempty
        simp only [List.append_nil, List.mem_reverse]
        exact hnl
      exact (List.perm_ext_iff_of_nodup hnodup hnd).mpr
        (fun a => ⟨fun h => hsub h, fun h => hkeys a h⟩)
    · refine (hnodup.subperm hsub).perm_of_length_le ?_
      have hlk : (graphKeys g).length = g.length := List.length_map g Prod.fst
      omega
  refine ⟨l, by unfold lexicographicalTopologicalSort; exact heq, hperm, ?_⟩
  intro p hp q hq
  have hn : p.1 ∈ l := hperm.mem_iff.mpr (List.mem_map_of_mem Prod.fst hp)
  exact orderOK_sublist g hnd [] l hOK p.1 p.2 q hp hq hn (by simp)

/-- Witness for C4: the documented five-node example graph with a constant
key function; the sort succeeds with `["o", "l", "n", "m", "p"]`, a
permutation of the nodes in which `"o"` precedes everything that points at
it and `"n"` precedes `"m"`. -/
theorem lexTopoSort_spec_witness :
    lexicographicalTopologicalSort
        [("l", ["o"]), ("m", ["n", "o"]), ("n", ["o"]), ("o", []), ("p", ["o"])]
        (fun _ => .ok (0, 0)) = .ok ["o", "l", "n", "m", "p"]
    ∧ (["o", "l", "n", "m", "p"] : List Id).Perm
        (graphKeys [("l", ["o"]), ("m", ["n", "o"]), ("n", ["o"]), ("o", []), ("p", ["o"])])
    ∧ ∀ p ∈ ([("l", ["o"]), ("m", ["n", "o"]), ("n", ["o"]), ("o", []), ("p", ["o"])] : Graph),
        ∀ q ∈ p.2, [q, p.1].Sublist ["o", "l", "n", "m", "p"] := by
  obtain ⟨l, heq, hperm, hsubl⟩ := lexTopoSort_spec
    [("l", ["o"]), ("m", ["n", "o"]), ("n", ["o"]), ("o", []), ("p", ["o"])]
    (fun _ => .ok (0, 0)) (by decide) (by decide)
    ⟨fun s => if s = "o" then 0 else if s = "n" then 1 else 2, by decide⟩
    (fun n _ => ⟨(0, 0), rfl⟩)
  have hval : lexicographicalTopologicalSort
      [("l", ["o"]), ("m", ["n", "o"]), ("n", ["o"]), ("o", []), ("p", ["o"])]
      (fun _ => .ok (0, 0)) = .ok ["o", "l", "n", "m", "p"] := by rfl
  have hl : l = ["o", "l", "n", "m", "p"] := Except.ok.inj (heq.symm.trans hval)
  subst hl
  exact ⟨hval, hperm, hsubl⟩

/-- C9: on any graph — cyclic ones included — `lexicographical_topological_sort`
terminates and succeeds whenever the key function succeeds on the graph's
nodes; its output is a duplicate-free list of graph nodes (those eliminated
by the repeated zero-outdegree process, which is what the model computes),
and every node lying on a cycle (a nonempty node set each of whose members
has an out-edge back into the set) is silently omitted rather than causing
an error or a panic. -/
theorem lexTopoSort_cycle_tolerant (g : Graph) (keyFn : Id → Except Error (Int × Nat))
    (hnd : (graphKeys g).Nodup)
    (hk : ∀ n ∈ graphKeys g, ∃ v, keyFn n = .ok v) :
    ∃ l, lexicographicalTopologicalSort g keyFn = .ok l ∧ l.Nodup ∧
      (∀ x ∈ l, x ∈ graphKeys g) ∧
      ∀ C : List Id, (∀ n ∈ C, ∃ es, (n, es) ∈ g ∧ ∃ q ∈ es, q ∈ C) →
        ∀ n ∈ C, n ∉ l := by
  obtain ⟨l, heq, hOK, _⟩ := kahnAux_spec g keyFn hk g.length []
  obtain ⟨hnodup, hprops⟩ := orderOK_props g [] l hOK
  refine ⟨l, by unfold lexicographicalTopologicalSort; exact heq, hnodup,
    fun x hx => (hprops x hx).1, ?_⟩
  intro C hC n hn
  exact orderOK_cycle_excluded g C hC hnd [] l hOK (by simp) n hn

/-- Witness for C9: a two-node cycle `a ⇄ b` beside the isolated node `c`;
the sort returns `Ok ["c"]`, omitting the cycle nodes without error. -/
theorem lexTopoSort_cycle_tolerant_witness :
    lexicographicalTopologicalSort [("a", ["b"]), ("b", ["a"]), ("c", [])]
        (fun _ => .ok (0, 0)) = .ok ["c"]
    ∧ "a" ∉ (["c"] : List Id) ∧ "b" ∉ (["c"] : List Id) := by
  obtain ⟨l, heq, _, _, hcyc⟩ := lexTopoSort_cycle_tolerant
    [("a", ["b"]), ("b", ["a"]), ("c", [])] (fun _ => .ok (0, 0)) (by decide)
    (fun n _ => ⟨(0, 0), rfl⟩)
  have hval : lexicographicalTopologicalSort [("a", ["b"]), ("b", ["a"]), ("c", [])]
      (fun _ => .ok (0, 0)) = .ok ["c"] := by rfl
  have hC : ∀ n ∈ (["a", "b"] : List Id),
      ∃ es, (n, es) ∈ ([("a", ["b"]), ("b", ["a"]), ("c", [])] : Graph) ∧
        ∃ q ∈ es, q ∈ (["a", "b"] : List Id) := by
    intro n hn
    rcases List.mem_cons.mp hn with h | h
    · subst h
      exact ⟨["b"], by decide, "b", by decide, by decide⟩
    · rcases List.mem_cons.mp h with h' | h'
      · subst h'
        exact ⟨["a"], by decide, "a", by decide, by decide⟩
      · cases h'
  have hl : l = ["c"] := Except.ok.inj (heq.symm.trans hval)
  subst hl
  exact ⟨hval, hcyc ["a", "b"] hC "a" (by decide), hcyc ["a", "b"] hC "b" (by decide)⟩

/-! ### Map insertion/extension lemmas, and claims C5 and C6 -/

theorem lookupSM_insertSM_self {α : Type} (base : StMap α) (k : StateKey) (v : α) :
    lookupSM (insertSM base k v) k = some v := by
  unfold insertSM lookupSM
  rw [List.find?_append]
  have hbase : (base.filter (fun p => !decide (p.1 = k))).find?
      (fun p => decide (p.1 = k)) = none := by
    rw [List.find?_eq_none]
    intro p hp
    have := (List.mem_filter.mp hp).2
    simpa using this
  rw [hbase]
  simp

theorem lookupSM_insertSM_ne {α : Type} (base : StMap α) {k k' : StateKey} (v : α)
    (h : k' ≠ k) : lookupSM (insertSM base k v) k' = lookupSM base k' := by
  unfold insertSM lookupSM
  rw [List.find?_append]
  have htail : ([(k, v)].find? (fun p => decide (p.1 = k'))) = none := by
    rw [List.find?_eq_none]
    intro p hp
    rcases List.mem_cons.mp hp with h' | h'
    · subst h'
      simpa using (Ne.symm h)
    · cases h'
  rw [htail]
  induction base with
  | nil => simp
  | cons p rest ih =>
    by_cases hp : p.1 = k
    · rw [List.filter_cons_of_neg (by simpa using hp)]
      rw [List.find?_cons_of_neg _ (by simp [hp, Ne.symm h])]
      exact ih
    · rw [List.filter_cons_of_pos (by simpa using hp)]
      by_cases hp' : p.1 = k'
      · rw [List.find?_cons_of_pos _ (by simpa using hp'),
          List.find?_cons_of_pos _ (by simpa using hp')]
        simp
      · rw [List.find?_cons_of_neg _ (by simpa using hp'),
          List.find?_cons_of_neg _ (by simpa using hp')]
        exact ih

theorem lookupSM_extendSM_not_mem {α : Type} {overlay : StMap α} {k : StateKey}
    (h : k ∉ keysOf overlay) :
    ∀ base, lookupSM (extendSM base overlay) k = lookupSM base k := by
  induction overlay with
  | nil => intro base; rfl
  | cons p rest ih =>
    intro base
    unfold keysOf at h
    rw [List.map_cons] at h
    have h1 : k ≠ p.1 := fun he => h (he ▸ List.mem_cons_self p.1 _)
    have h2 : k ∉ keysOf rest := fun hm => h (List.mem_cons_of_mem _ hm)
    show lookupSM (extendSM (insertSM base p.1 p.2) rest) k = lookupSM base k
    rw [ih h2, lookupSM_insertSM_ne base p.2 h1]

theorem lookupSM_extendSM_of_overlay {α : Type} {overlay : StMap α} (hnd : NodupKeys overlay)
    {k : StateKey} {v : α} (hv : lookupSM overlay k = some v) :
    ∀ base, lookupSM (extendSM base overlay) k = some v := by
  induction overlay with
  | nil => intro base; cases hv
  | cons p rest ih =>
    intro base
    unfold NodupKeys at hnd
    rw [List.map_cons, List.nodup_cons] at hnd
    by_cases hk : p.1 = k
    · have hvv : p.2 = v := by
        unfold lookupSM at hv
        rw [List.find?_cons_of_pos _ (by simpa using hk)] at hv
        simpa using hv
      have hkr : k ∉ keysOf rest := hk ▸ hnd.1
      show lookupSM (extendSM (insertSM base p.1 p.2) rest) k = some v
      rw [lookupSM_extendSM_not_mem hkr, ← hk, ← hvv]
      exact lookupSM_insertSM_self base p.1 p.2
    · have hv' : lookupSM rest k = some v := by
        unfold lookupSM at hv ⊢
        rwa [List.find?_cons_of_neg _ (by simpa using hk)] at hv
      exact ih hnd.2 hv' _

theorem lookupSM_extendSM_cases {α : Type} {overlay base : StMap α} {k : StateKey} {v : α}
    (h : lookupSM (extendSM base overlay) k = some v) :
    (∃ v', lookupSM overlay k = some v') ∨
      (k ∉ keysOf overlay ∧ lookupSM base k = some v) := by
  by_cases hk : k ∈ keysOf overlay
  · obtain ⟨p, hp, he⟩ := List.mem_map.mp hk
    left
    refine @mem_lookupSM_some _ _ _ p.2 ?_
    rwa [show (k, p.2) = p from Prod.ext_iff.mpr ⟨he.symm, rfl⟩]
  · right
    exact ⟨hk, by rwa [lookupSM_extendSM_not_mem hk base] at h⟩

theorem separate_clean_nodupKeys {α : Type} [DecidableEq α] (sets : List (StMap α)) :
    NodupKeys (separate sets).1 := by
  unfold NodupKeys separate
  dsimp only
  rw [List.map_filterMap]
  have hsub : (List.filterMap (fun k =>
      Option.map Prod.fst (if allEqual (collectVals sets k) then
        ((collectVals sets k).getLast?.join.map (fun v => (k, v))) else none))
      (canonKeys (sets.flatMap keysOf))).Sublist (canonKeys (sets.flatMap keysOf)) := by
    have : ∀ ks : List StateKey, (List.filterMap (fun k =>
        Option.map Prod.fst (if allEqual (collectVals sets k) then
          ((collectVals sets k).getLast?.join.map (fun v => (k, v))) else none)) ks).Sublist ks := by
      intro ks
      induction ks with
      | nil => exact List.Sublist.refl []
      | cons a rest ih =>
        rw [List.filterMap_cons]
        cases hfa : Option.map Prod.fst (if allEqual (collectVals sets a) then
            ((collectVals sets a).getLast?.join.map (fun v => (a, v))) else none) with
        | none => exact ih.cons a
        | some b =>
          have hb : b = a := by
            rcases Option.map_eq_some'.mp hfa with ⟨p, hp, he⟩
            split at hp
            · rcases Option.map_eq_some'.mp hp with ⟨w, _, hpe⟩
              rw [← he, ← hpe]
            · cases hp
          rw [hb]
          exact List.cons_sublist_cons.mpr ih
    exact this _
  exact hsub.nodup (canonKeys_nodup _)

theorem separate_single {α : Type} [DecidableEq α] (S : StMap α) :
    (separate [S]).2 = [] ∧ ∀ k, lookupSM (separate [S]).1 k = lookupSM S k := by
  constructor
  · unfold separate
    dsimp only
    rw [List.filterMap_eq_nil_iff]
    intro k _
    have : allEqual (collectVals [S] k) = true := rfl
    rw [if_pos this]
  · intro k
    rw [separate_clean_lookup]
    by_cases hk : k ∈ [S].flatMap keysOf
    · rw [if_pos hk]
      have hae : allEqual (collectVals [S] k) = true := rfl
      rw [if_pos hae]
      have hks : k ∈ keysOf S := by simpa using hk
      obtain ⟨p, hp, he⟩ := List.mem_map.mp hks
      obtain ⟨v, hv⟩ := @mem_lookupSM_some _ _ _ p.2
        (by rwa [show (k, p.2) = p from Prod.ext_iff.mpr ⟨he.symm, rfl⟩])
      show ([lookupSM S k].getLast?).join = lookupSM S k
      rw [hv]
      rfl
    · rw [if_neg hk]
      have : k ∉ keysOf S := fun h => hk (by simpa using h)
      exact (lookupSM_none_iff.mpr this).symm

/-- C5: a `resolve` call with a single input state set is the identity on
that input: `separate` finds no conflict, so the unconflicted map — the
input itself — is returned untouched. In particular, feeding a previous
`resolve` result back as the only state set returns it unchanged
(idempotence), for any auth chains, fetcher, exists oracle and auth black
boxes, none of which are consulted. -/
theorem resolve_single_input (fuel : Nat) (rv : String) (S : StMap Id)
    (acs : List (List Id)) (fetch : Id → Option Event) (ex : Id → Bool)
    (aty : AuthTypesFn) (ac : AuthCheckFn) :
    ∃ m, resolve fuel rv [S] acs fetch ex aty ac = .ok m ∧
      ∀ k, lookupSM m k = lookupSM S k := by
  obtain ⟨hconf, hclean⟩ := separate_single S
  refine ⟨(separate [S]).1, ?_, hclean⟩
  unfold resolve
  rw [hconf]
  rfl

/-- C6: whatever `separate` classified as unconflicted survives to the
output of every successful `resolve` call with its unconflicted value: the
unconflicted entries are re-inserted after both auth passes
(`resolved_state.extend(clean)`) and win any tie. -/
theorem resolve_unconflicted_wins (fuel : Nat) (rv : String) (sets : List (StMap Id))
    (acs : List (List Id)) (fetch : Id → Option Event) (ex : Id → Bool)
    (aty : AuthTypesFn) (ac : AuthCheckFn) (m : StMap Id) (k : StateKey) (v : Id)
    (h : resolve fuel rv sets acs fetch ex aty ac = .ok m)
    (hv : lookupSM (separate sets).1 k = some v) :
    lookupSM m k = some v := by
  unfold resolve at h
  by_cases hc : ((separate sets).2).isEmpty
  · rw [if_pos hc] at h
    injection h with h
    rw [← h]
    exact hv
  · rw [if_neg hc] at h
    unfold resolveConflicted at h
    cases h1 : reverseTopologicalPowerSort
        ((allConflictedOf sets acs ex).filter (isPowerEventId fetch))
        (allConflictedOf sets acs ex) fetch with
    | error e => rw [h1] at h; cases h
    | ok sortedControls =>
      rw [h1] at h
      simp only [exceptBind_ok] at h
      cases h2 : roomVersionNew rv with
      | error e => rw [h2] at h; cases h
      | ok rv' =>
        rw [h2] at h
        simp only [exceptBind_ok] at h
        cases h3 : iterativeAuthCheck rv' sortedControls (separate sets).1 fetch aty ac with
        | error e => rw [h3] at h; cases h
        | ok rc =>
          rw [h3] at h
          simp only [exceptBind_ok] at h
          cases h4 : mainlineSort fuel
              ((allConflictedOf sets acs ex).filter (fun i => !decide (i ∈ sortedControls)))
              (lookupSM rc ("m.room.power_levels", "")) fetch with
          | error e => rw [h4] at h; cases h
          | ok sl =>
            rw [h4] at h
            simp only [exceptBind_ok] at h
            cases h5 : iterativeAuthCheck rv' sl rc fetch aty ac with
            | error e => rw [h5] at h; cases h
            | ok rs =>
              rw [h5] at h
              simp only [exceptBind_ok] at h
              injection h with h
              rw [← h]
              exact lookupSM_extendSM_of_overlay (separate_clean_nodupKeys sets) hv rs

/-- Witness for C6: two state sets agreeing on the topic key and
disagreeing on a member key; the rejected-everything auth check leaves the
conflicted key out, but the unconflicted topic entry is in the output. -/
theorem resolve_unconflicted_wins_witness :
    lookupSM (separate [[(("m.room.topic", ""), "t"), (("m.room.member", "@b:x"), "u")],
        [(("m.room.topic", ""), "t"), (("m.room.member", "@b:x"), "w")]]).1
      ("m.room.topic", "") = some "t"
    ∧ ∃ m, resolve 4 "6"
        [[(("m.room.topic", ""), "t"), (("m.room.member", "@b:x"), "u")],
         [(("m.room.topic", ""), "t"), (("m.room.member", "@b:x"), "w")]]
        [[], []] (fun _ => none) (fun _ => false)
        (fun _ _ _ _ => .ok []) (fun _ _ _ _ => .ok false) = .ok m
      ∧ lookupSM m ("m.room.topic", "") = some "t" := by
  have hres : resolve 4 "6"
      [[(("m.room.topic", ""), "t"), (("m.room.member", "@b:x"), "u")],
       [(("m.room.topic", ""), "t"), (("m.room.member", "@b:x"), "w")]]
      [[], []] (fun _ => none) (fun _ => false)
      (fun _ _ _ _ => .ok []) (fun _ _ _ _ => .ok false) =
      .ok (extendSM [] (separate
        [[(("m.room.topic", ""), "t"), (("m.room.member", "@b:x"), "u")],
         [(("m.room.topic", ""), "t"), (("m.room.member", "@b:x"), "w")]]).1) := by rfl
  refine ⟨by rfl, _, hres, ?_⟩
  exact resolve_unconflicted_wins 4 "6" _ [[], []] (fun _ => none) (fun _ => false)
    (fun _ _ _ _ => .ok []) (fun _ _ _ _ => .ok false) _ ("m.room.topic", "") "t" hres (by rfl)

/-! ### Claim C1: the output key set of `resolve` -/

theorem checkOne_key_origin {rv : RoomVersion} {fetch : Id → Option Event}
    {aty : AuthTypesFn} {ac : AuthCheckFn} {s s₁ : StMap Id} {e : Id}
    (hc : checkOne rv fetch aty ac s e = .ok s₁) (k : StateKey) :
    (∃ v, lookupSM s₁ k = some v) →
      (∃ v, lookupSM s k = some v) ∨
        ∃ ev, fetch e = some ev ∧ ∃ sk, ev.stateKey = some sk ∧ k = (ev.eventType, sk) := by
  intro hk
  unfold checkOne orThrow at hc
  cases hfe : fetch e with
  | none => rw [hfe] at hc; cases hc
  | some ev =>
    rw [hfe] at hc
    simp only [exceptBind_ok] at hc
    cases hsk : ev.stateKey with
    | none => rw [hsk] at hc; cases hc
    | some sk =>
      rw [hsk] at hc
      simp only [exceptBind_ok] at hc
      cases hg : gatherAuthEvents fetch [] ev.authEvents with
      | error err => rw [hg] at hc; cases hc
      | ok ae =>
        rw [hg] at hc
        simp only [exceptBind_ok] at hc
        cases hty : aty ev.eventType ev.sender (some sk) ev.content with
        | error err => rw [hty] at hc; cases hc
        | ok tys =>
          rw [hty] at hc
          simp only [exceptBind_ok] at hc
          cases hac : ac rv ev (Option.map Prod.snd (List.find?
              (fun p => decide (p.2.eventType = "m.room.third_party_invite"))
              (List.foldl (fun m key =>
                match lookupSM s key with
                | some evId =>
                  match fetch evId with
                  | some ev => insertSM m key ev
                  | none => m
                | none => m) ae tys)))
              (fun ty key => lookupSM (List.foldl (fun m key =>
                match lookupSM s key with
                | some evId =>
                  match fetch evId with
                  | some ev => insertSM m key ev
                  | none => m
                | none => m) ae tys) (ty, key)) with
          | error err => rw [hac] at hc; cases hc
          | ok ok' =>
            rw [hac] at hc
            simp only [exceptBind_ok] at hc
            by_cases hok : ok' = true
            · rw [if_pos hok] at hc
              injection hc with hc
              rw [← hc] at hk
              by_cases hkk : k = (ev.eventType, sk)
              · exact Or.inr ⟨ev, rfl, sk, hsk, hkk⟩
              · obtain ⟨v, hv⟩ := hk
                rw [lookupSM_insertSM_ne s e hkk] at hv
                exact Or.inl ⟨v, hv⟩
            · rw [if_neg hok] at hc
              injection hc with hc
              rw [← hc] at hk
              exact Or.inl hk

theorem iterativeAuthCheck_key_origin {rv : RoomVersion} {fetch : Id → Option Event}
    {aty : AuthTypesFn} {ac : AuthCheckFn} :
    ∀ {events : List Id} {s₀ s' : StMap Id},
      iterativeAuthCheck rv events s₀ fetch aty ac = .ok s' → ∀ k,
      (∃ v, lookupSM s' k = some v) →
        (∃ v, lookupSM s₀ k = some v) ∨
          ∃ i, i ∈ events ∧ ∃ ev, fetch i = some ev ∧
            ∃ sk, ev.stateKey = some sk ∧ k = (ev.eventType, sk) := by
  intro events
  induction events with
  | nil =>
    intro s₀ s' h k hk
    injection h with h
    exact Or.inl (h ▸ hk)
  | cons e es ih =>
    intro s₀ s' h k hk
    unfold iterativeAuthCheck at h
    rw [List.foldlM_cons] at h
    cases hc : checkOne rv fetch aty ac s₀ e with
    | error err => rw [hc] at h; cases h
    | ok s₁ =>
      rw [hc] at h
      simp only [exceptBind_ok] at h
      rcases ih h k hk with h1 | ⟨i, hi, rest⟩
      · rcases checkOne_key_origin hc k h1 with h2 | ⟨ev, hev, rest⟩
        · exact Or.inl h2
        · exact Or.inr ⟨e, List.mem_cons_self e es, ev, hev, rest⟩
      · exact Or.inr ⟨i, List.mem_cons_of_mem e hi, rest⟩

theorem checkOne_key_preserved {rv : RoomVersion} {fetch : Id → Option Event}
    {aty : AuthTypesFn} {ac : AuthCheckFn} {s s₁ : StMap Id} {e : Id}
    (hc : checkOne rv fetch aty ac s e = .ok s₁) (k : StateKey)
    (hk : ∃ v, lookupSM s k = some v) : ∃ v, lookupSM s₁ k = some v := by
  unfold checkOne orThrow at hc
  cases hfe : fetch e with
  | none => rw [hfe] at hc; cases hc
  | some ev =>
    rw [hfe] at hc
    simp only [exceptBind_ok] at hc
    cases hsk : ev.stateKey with
    | none => rw [hsk] at hc; cases hc
    | some sk =>
      rw [hsk] at hc
      simp only [exceptBind_ok] at hc
      cases hg : gatherAuthEvents fetch [] ev.authEvents with
      | error err => rw [hg] at hc; cases hc
      | ok ae =>
        rw [hg] at hc
        simp only [exceptBind_ok] at hc
        cases hty : aty ev.eventType ev.sender (some sk) ev.content with
        | error err => rw [hty] at hc; cases hc
        | ok tys =>
          rw [hty] at hc
          simp only [exceptBind_ok] at hc
          cases hac : ac rv ev (Option.map Prod.snd (List.find?
              (fun p => decide (p.2.eventType = "m.room.third_party_invite"))
              (List.foldl (fun m key =>
                match lookupSM s key with
                | some evId =>
                  match fetch evId with
                  | some ev => insertSM m key ev
                  | none => m
                | none => m) ae tys)))
              (fun ty key => lookupSM (List.foldl (fun m key =>
                match lookupSM s key with
                | some evId =>
                  match fetch evId with
                  | some ev => insertSM m key ev
                  | none => m
                | none => m) ae tys) (ty, key)) with
          | error err => rw [hac] at hc; cases hc
          | ok ok' =>
            rw [hac] at hc
            simp only [exceptBind_ok] at hc
            by_cases hok : ok' = true
            · rw [if_pos hok] at hc
              injection hc with hc
              rw [← hc]
              by_cases hkk : k = (ev.eventType, sk)
              · exact ⟨e, by rw [hkk]; exact lookupSM_insertSM_self s _ e⟩
              · obtain ⟨v, hv⟩ := hk
                exact ⟨v, by rw [lookupSM_insertSM_ne s e hkk]; exact hv⟩
            · rw [if_neg hok] at hc
              injection hc with hc
              rw [← hc]
              exact hk

theorem iterativeAuthCheck_key_preserved {rv : RoomVersion} {fetch : Id → Option Event}
    {aty : AuthTypesFn} {ac : AuthCheckFn} :
    ∀ {events : List Id} {s₀ s' : StMap Id},
      iterativeAuthCheck rv events s₀ fetch aty ac = .ok s' → ∀ k,
      (∃ v, lookupSM s₀ k = some v) → ∃ v, lookupSM s' k = some v := by
  intro events
  induction events with
  | nil =>
    intro s₀ s' h k hk
    injection h with h
    exact h ▸ hk
  | cons e es ih =>
    intro s₀ s' h k hk
    unfold iterativeAuthCheck at h
    rw [List.foldlM_cons] at h
    cases hc : checkOne rv fetch aty ac s₀ e with
    | error err => rw [hc] at h; cases h
    | ok s₁ =>
      rw [hc] at h
      simp only [exceptBind_ok] at h
      exact ih h k (checkOne_key_preserved hc k hk)

theorem mapM_keyed_shape {keyFn : Id → Except Error (Int × Nat)} :
    ∀ {l : List Id} {keyed : List ((Int × Nat) × Id)},
      l.mapM (fun n => (keyFn n).map (fun k => (k, n))) = .ok keyed →
      keyed.map Prod.snd = l := by
  intro l
  induction l with
  | nil =>
    intro keyed h
    injection h with h
    rw [← h]
    rfl
  | cons x xs ih =>
    intro keyed h
    rw [List.mapM_cons] at h
    cases hx : keyFn x with
    | error err => rw [hx] at h; cases h
    | ok v =>
      rw [hx] at h
      cases hrest : xs.mapM (fun n => (keyFn n).map (fun k => (k, n))) with
      | error err =>
        rw [hrest] at h
        cases h
      | ok krest =>
        rw [hrest] at h
        simp only [Except.map, exceptBind_ok] at h
        injection h with h
        rw [← h, List.map_cons, ih hrest]

theorem kahnAux_mem_keys {g : Graph} {keyFn : Id → Except Error (Int × Nat)} :
    ∀ {fuel : Nat} {emitted l : List Id},
      kahnAux g keyFn fuel emitted = .ok l → ∀ x ∈ l, x ∈ graphKeys g := by
  intro fuel
  induction fuel with
  | zero =>
    intro emitted l h x hx
    injection h with h
    rw [← h] at hx
    cases hx
  | succ fuel ih =>
    intro emitted l h x hx
    unfold kahnAux at h
    cases hav : availNodes g emitted with
    | nil =>
      rw [hav] at h
      injection h with h
      rw [← h] at hx
      cases hx
    | cons a rest =>
      rw [hav] at h
      dsimp only at h
      cases hmm : (a :: rest).mapM (fun n => (keyFn n).map (fun k => (k, n))) with
      | error err => rw [hmm] at h; cases h
      | ok keyed =>
        rw [hmm] at h
        simp only [exceptBind_ok] at h
        cases hpk : pickMinBy tbLt keyed with
        | none =>
          rw [hpk] at h
          injection h with h
          rw [← h] at hx
          cases hx
        | some best =>
          rw [hpk] at h
          dsimp only at h
          cases hrec : kahnAux g keyFn fuel (best.2 :: emitted) with
          | error err => rw [hrec] at h; cases h
          | ok tail =>
            rw [hrec] at h
            simp only [exceptBind_ok] at h
            injection h with h
            rw [← h] at hx
            have hbk : best.2 ∈ graphKeys g := by
              have hb : best ∈ keyed := pickMinBy_mem hpk
              have : best.2 ∈ availNodes g emitted := by
                rw [hav, ← mapM_keyed_shape hmm]
                exact List.mem_map_of_mem Prod.snd hb
              obtain ⟨es, hes, _, _⟩ := availNodes_mem.mp this
              exact List.mem_map_of_mem Prod.fst hes
            rcases List.mem_cons.mp hx with h' | h'
            · exact h' ▸ hbk
            · exact ih hrec x h'

theorem buildGraph_keys_subset (fetch : Id → Option Event) (authDiff seeds : List Id) :
    ∀ x ∈ graphKeys (buildGraph fetch authDiff seeds), x ∈ seeds ∨ x ∈ authDiff := by
  intro x hx
  unfold buildGraph graphKeys at hx
  rw [List.map_map] at hx
  have hx' : x ∈ reachSet fetch authDiff seeds := by
    obtain ⟨y, hy, he⟩ := List.mem_map.mp hx
    exact he ▸ hy
  unfold reachSet at hx'
  have hstep : ∀ (s : List Id), (∀ y ∈ s, y ∈ seeds ∨ y ∈ authDiff) →
      ∀ y ∈ reachStep fetch authDiff s, y ∈ seeds ∨ y ∈ authDiff := by
    intro s hs y hy
    unfold reachStep at hy
    rcases List.mem_append.mp (mem_canonSet.mp hy) with h | h
    · exact hs y h
    · obtain ⟨z, _, hz⟩ := List.mem_flatMap.mp h
      unfold inDiffParents at hz
      cases hfz : fetch z with
      | none =>
        rw [hfz] at hz
        cases hz
      | some ev =>
        rw [hfz] at hz
        have := mem_canonSet.mp hz
        exact Or.inr (by simpa using (List.mem_filter.mp this).2)
  have : ∀ (n : Nat) (s : List Id), (∀ y ∈ s, y ∈ seeds ∨ y ∈ authDiff) →
      ∀ y ∈ (reachStep fetch authDiff)^[n] s, y ∈ seeds ∨ y ∈ authDiff := by
    intro n
    induction n with
    | zero => intro s hs y hy; exact hs y hy
    | succ n ihn =>
      intro s hs y hy
      rw [Function.iterate_succ_apply] at hy
      exact ihn _ (hstep s hs) y hy
  exact this _ _ (fun y hy => Or.inl (mem_canonSet.mp hy)) x hx'

theorem reverseTopologicalPowerSort_subset {seeds authDiff : List Id}
    {fetch : Id → Option Event} {l : List Id}
    (h : reverseTopologicalPowerSort seeds authDiff fetch = .ok l) :
    ∀ i ∈ l, i ∈ seeds ∨ i ∈ authDiff := by
  intro i hi
  unfold reverseTopologicalPowerSort at h
  cases hpl : (graphKeys (buildGraph fetch authDiff seeds)).mapM
      (fun j => (getPowerLevelForSender fetch j).map (fun pl => (j, pl))) with
  | error err => rw [hpl] at h; cases h
  | ok eventToPl =>
    rw [hpl] at h
    simp only [exceptBind_ok] at h
    have hkeys := @kahnAux_mem_keys (buildGraph fetch authDiff seeds) _ _ _ _ h i hi
    exact buildGraph_keys_subset fetch authDiff seeds i hkeys

theorem mainlineSort_subset {fuel : Nat} {toSort : List Id} {mpl : Option Id}
    {fetch : Id → Option Event} {l : List Id}
    (h : mainlineSort fuel toSort mpl fetch = .ok l) : ∀ i ∈ l, i ∈ toSort := by
  intro i hi
  unfold mainlineSort at h
  by_cases ht : toSort.isEmpty
  · rw [if_pos ht] at h
    injection h with h
    rw [← h] at hi
    cases hi
  · rw [if_neg ht] at h
    cases hw : mainlineWalk fetch fuel mpl with
    | error err => rw [hw] at h; cases h
    | ok ml =>
      rw [hw] at h
      simp only [exceptBind_ok] at h
      injection h with h
      rw [← h] at hi
      obtain ⟨q, hq, hqe⟩ := List.mem_map.mp hi
      have hq' := (sortBy_perm _ _).mem_iff.mp hq
      obtain ⟨j, hj, hfm⟩ := List.mem_filterMap.mp hq'
      cases hfj : fetch j with
      | none =>
        rw [hfj] at hfm
        cases hfm
      | some ev =>
        rw [hfj] at hfm
        dsimp only at hfm
        cases hd : getMainlineDepth fetch (mainlineMapOf ml) fuel (some ev) with
        | error err => rw [hd] at hfm; cases hfm
        | ok depth =>
          rw [hd] at hfm
          dsimp only at hfm
          cases hfm
          exact hqe ▸ hj

/-- C1 (as amended): for every successful `resolve` call, the output
contains every unconflicted key, and every output key is either an
unconflicted key or the (type, state key) of a fetched event of the full
conflicted set (the auth-chain diff united with the conflicted values,
filtered by `exists`). The original claim's equality with the union of the
input keys fails in both directions: a conflicted key vanishes when all of
its candidate events are rejected by the auth check, and an auth-chain-diff
event can contribute a key no input state map had. -/
theorem resolve_key_set (fuel : Nat) (rv : String) (sets : List (StMap Id))
    (acs : List (List Id)) (fetch : Id → Option Event) (ex : Id → Bool)
    (aty : AuthTypesFn) (ac : AuthCheckFn) (m : StMap Id)
    (h : resolve fuel rv sets acs fetch ex aty ac = .ok m) :
    (∀ k v, lookupSM (separate sets).1 k = some v → ∃ v', lookupSM m k = some v')
    ∧ (∀ k v, lookupSM m k = some v →
        (∃ v0, lookupSM (separate sets).1 k = some v0) ∨
          ∃ i ev, i ∈ allConflictedOf sets acs ex ∧ fetch i = some ev ∧
            ∃ sk, ev.stateKey = some sk ∧ k = (ev.eventType, sk)) := by
  unfold resolve at h
  by_cases hc : ((separate sets).2).isEmpty
  · rw [if_pos hc] at h
    injection h with h
    subst h
    exact ⟨fun k v hv => ⟨v, hv⟩, fun k v hv => Or.inl ⟨v, hv⟩⟩
  · rw [if_neg hc] at h
    unfold resolveConflicted at h
    cases h1 : reverseTopologicalPowerSort
        ((allConflictedOf sets acs ex).filter (isPowerEventId fetch))
        (allConflictedOf sets acs ex) fetch with
    | error e => rw [h1] at h; cases h
    | ok sortedControls =>
      rw [h1] at h
      simp only [exceptBind_ok] at h
      cases h2 : roomVersionNew rv with
      | error e => rw [h2] at h; cases h
      | ok rv' =>
        rw [h2] at h
        simp only [exceptBind_ok] at h
        cases h3 : iterativeAuthCheck rv' sortedControls (separate sets).1 fetch aty ac with
        | error e => rw [h3] at h; cases h
        | ok rc =>
          rw [h3] at h
          simp only [exceptBind_ok] at h
          cases h4 : mainlineSort fuel
              ((allConflictedOf sets acs ex).filter (fun i => !decide (i ∈ sortedControls)))
              (lookupSM rc ("m.room.power_levels", "")) fetch with
          | error e => rw [h4] at h; cases h
          | ok sl =>
            rw [h4] at h
            simp only [exceptBind_ok] at h
            cases h5 : iterativeAuthCheck rv' sl rc fetch aty ac with
            | error e => rw [h5] at h; cases h
            | ok rs =>
              rw [h5] at h
              simp only [exceptBind_ok] at h
              injection h with h
              subst h
              constructor
              · intro k v hv
                exact ⟨v, lookupSM_extendSM_of_overlay (separate_clean_nodupKeys sets) hv rs⟩
              · intro k v hv
                rcases lookupSM_extendSM_cases hv with hover | ⟨hnot, hbase⟩
                · exact Or.inl hover
                · rcases iterativeAuthCheck_key_origin h5 k ⟨v, hbase⟩ with hrc | ⟨i, hi, hev⟩
                  · rcases iterativeAuthCheck_key_origin h3 k hrc with hclean | ⟨i, hi, hev⟩
                    · exact Or.inl hclean
                    · obtain ⟨ev, hev', rest⟩ := hev
                      rcases reverseTopologicalPowerSort_subset h1 i hi with hseed | hdiff
                      · exact Or.inr ⟨i, ev, (List.mem_filter.mp hseed).1, hev', rest⟩
                      · exact Or.inr ⟨i, ev, hdiff, hev', rest⟩
                  · have hin := mainlineSort_subset h4 i hi
                    obtain ⟨ev, hev', rest⟩ := hev
                    exact Or.inr ⟨i, ev, (List.mem_filter.mp hin).1, hev', rest⟩

/-- Witness for C1's amended theorem applied at a concrete successful call:
two state sets conflicting on the topic key with a reject-all auth check;
the output is empty, the unconflicted map is empty, and the conjunction
holds at that call. -/
theorem resolve_key_set_witness :
    (∀ k v, lookupSM (separate
        [[(("m.room.topic", ""), "a")], [(("m.room.topic", ""), "b")]]).1 k = some v →
      ∃ v', lookupSM ([] : StMap Id) k = some v')
    ∧ (∀ k v, lookupSM ([] : StMap Id) k = some v →
        (∃ v0, lookupSM (separate
            [[(("m.room.topic", ""), "a")], [(("m.room.topic", ""), "b")]]).1 k = some v0) ∨
          ∃ i ev, i ∈ allConflictedOf
              [[(("m.room.topic", ""), "a")], [(("m.room.topic", ""), "b")]] [[], []]
              (fun _ => true) ∧
            (fun i => if i = "a" then
                some (Event.mk "a" "m.room.topic" (some "") "@alice:x" Content.otherContent [] 1)
              else if i = "b" then
                some (Event.mk "b" "m.room.topic" (some "") "@alice:x" Content.otherContent [] 2)
              else none) i = some ev ∧
            ∃ sk, ev.stateKey = some sk ∧ k = (ev.eventType, sk)) :=
  resolve_key_set 4 "6" [[(("m.room.topic", ""), "a")], [(("m.room.topic", ""), "b")]]
    [[], []]
    (fun i => if i = "a" then
        some (Event.mk "a" "m.room.topic" (some "") "@alice:x" Content.otherContent [] 1)
      else if i = "b" then
        some (Event.mk "b" "m.room.topic" (some "") "@alice:x" Content.otherContent [] 2)
      else none)
    (fun _ => true) (fun _ _ _ _ => .ok []) (fun _ _ _ _ => .ok false) [] (by rfl)

/-- Counterexample to C1 as stated: the key `(m.room.topic, "")` appears in
both input state maps, both its candidate events exist (`exists` is
constantly true), yet the output of this successful `resolve` call is the
empty map — the key vanishes because the auth check rejects both
candidates, which the claimed key-set equality does not allow. -/
theorem resolve_key_set_cex :
    resolve 4 "6" [[(("m.room.topic", ""), "a")], [(("m.room.topic", ""), "b")]]
      [[], []]
      (fun i => if i = "a" then
          some (Event.mk "a" "m.room.topic" (some "") "@alice:x" Content.otherContent [] 1)
        else if i = "b" then
          some (Event.mk "b" "m.room.topic" (some "") "@alice:x" Content.otherContent [] 2)
        else none)
      (fun _ => true) (fun _ _ _ _ => .ok []) (fun _ _ _ _ => .ok false) = .ok []
    ∧ ("m.room.topic", "") ∈
        ([[(("m.room.topic", ""), "a")], [(("m.room.topic", ""), "b")]] :
          List (StMap Id)).flatMap keysOf
    ∧ lookupSM ([] : StMap Id) ("m.room.topic", "") = none := by
  refine ⟨by rfl, by decide, by rfl⟩

/-! ### Claim C7: permutation invariance of `resolve` -/

theorem charsLt_trans : ∀ (l₁ l₂ l₃ : List Char),
    charsLt l₁ l₂ = true → charsLt l₂ l₃ = true → charsLt l₁ l₃ = true := by
  intro l₁
  induction l₁ with
  | nil =>
    intro l₂ l₃ h12 h23
    cases l₂ with
    | nil => cases h12
    | cons b bs =>
      cases l₃ with
      | nil => cases h23
      | cons c cs => rfl
  | cons a as ih =>
    intro l₂ l₃ h12 h23
    cases l₂ with
    | nil => cases h12
    | cons b bs =>
      cases l₃ with
      | nil => cases h23
      | cons c cs =>
        unfold charsLt at h12 h23 ⊢
        by_cases hab : a.toNat < b.toNat <;> by_cases hbc : b.toNat < c.toNat
        · rw [if_pos (by omega)]
        · rw [if_neg hbc] at h23
          by_cases hcb : c.toNat < b.toNat
          · rw [if_pos hcb] at h23
            cases h23
          · have : b.toNat = c.toNat := by omega
            rw [if_pos (by omega)]
        · rw [if_neg hab] at h12
          by_cases hba : b.toNat < a.toNat
          · rw [if_pos hba] at h12
            cases h12
          · have : a.toNat = b.toNat := by omega
            rw [if_pos (by omega)]
        · rw [if_neg hab] at h12
          rw [if_neg hbc] at h23
          by_cases hba : b.toNat < a.toNat
          · rw [if_pos hba] at h12
            cases h12
          · by_cases hcb : c.toNat < b.toNat
            · rw [if_pos hcb] at h23
              cases h23
            · rw [if_neg hba] at h12
              rw [if_neg hcb] at h23
              rw [if_neg (by omega), if_neg (by omega)]
              exact ih bs cs h12 h23

theorem charsLt_asymm : ∀ (l₁ l₂ : List Char),
    charsLt l₁ l₂ = true → charsLt l₂ l₁ = false := by
  intro l₁
  induction l₁ with
  | nil =>
    intro l₂ h
    cases l₂ with
    | nil => cases h
    | cons b bs => rfl
  | cons a as ih =>
    intro l₂ h
    cases l₂ with
    | nil => cases h
    | cons b bs =>
      unfold charsLt at h ⊢
      by_cases hab : a.toNat < b.toNat
      · rw [if_neg (by omega), if_pos (by omega)]
      · rw [if_neg hab] at h
        by_cases hba : b.toNat < a.toNat
        · rw [if_pos hba] at h
          cases h
        · rw [if_neg hba] at h
          rw [if_neg hba, if_neg hab]
          exact ih bs h

theorem charsLt_connex : ∀ (l₁ l₂ : List Char),
    charsLt l₁ l₂ = false → charsLt l₂ l₁ = false → l₁ = l₂ := by
  intro l₁
  induction l₁ with
  | nil =>
    intro l₂ h12 _
    cases l₂ with
    | nil => rfl
    | cons b bs => cases h12
  | cons a as ih =>
    intro l₂ h12 h21
    cases l₂ with
    | nil => cases h21
    | cons b bs =>
      unfold charsLt at h12 h21
      by_cases hab : a.toNat < b.toNat
      · rw [if_pos hab] at h12
        cases h12
      · by_cases hba : b.toNat < a.toNat
        · rw [if_pos hba] at h21
          cases h21
        · rw [if_neg hab, if_neg hba] at h12
          rw [if_neg hba, if_neg hab] at h21
          have hc : a = b := by
            apply Char.ext
            apply UInt32.ext
            unfold Char.toNat at hab hba
            omega
          rw [hc, ih bs h12 h21]

theorem idLe_total (a b : String) : idLe a b = true ∨ idLe b a = true := by
  unfold idLe idLt
  by_cases h : charsLt b.data a.data = true
  · right
    rw [charsLt_asymm _ _ h]
    rfl
  · left
    rw [Bool.not_eq_true] at h
    rw [h]
    rfl

theorem idLe_trans (a b c : String) (h1 : idLe a b = true) (h2 : idLe b c = true) :
    idLe a c = true := by
  unfold idLe idLt at h1 h2 ⊢
  rw [Bool.not_eq_true'] at h1 h2 ⊢
  by_cases hca : charsLt c.data a.data = true
  · exfalso
    by_cases hbc : charsLt b.data c.data = true
    · rw [charsLt_trans _ _ _ hbc hca] at h1
      cases h1
    · rw [Bool.not_eq_true] at hbc
      have he : b.data = c.data := charsLt_connex _ _ hbc h2
      rw [← he] at hca
      rw [hca] at h1
      cases h1
  · rwa [Bool.not_eq_true] at hca

theorem idLe_antisymm (a b : String) (h1 : idLe a b = true) (h2 : idLe b a = true) :
    a = b := by
  unfold idLe idLt at h1 h2
  rw [Bool.not_eq_true'] at h1 h2
  exact String.ext (charsLt_connex _ _ h2 h1)

theorem keyLe_total (a b : StateKey) : keyLe a b = true ∨ keyLe b a = true := by
  unfold keyLe
  by_cases h : a.1 = b.1
  · rw [if_pos h, if_pos h.symm]
    exact idLe_total a.2 b.2
  · rw [if_neg h, if_neg (Ne.symm h)]
    by_cases hl : idLt a.1 b.1 = true
    · exact Or.inl hl
    · right
      unfold idLt at hl ⊢
      rw [Bool.not_eq_true] at hl
      by_cases hr : charsLt b.1.data a.1.data = true
      · exact hr
      · rw [Bool.not_eq_true] at hr
        exact absurd (String.ext (charsLt_connex _ _ hl hr)) h

theorem keyLe_trans (a b c : StateKey) (h1 : keyLe a b = true) (h2 : keyLe b c = true) :
    keyLe a c = true := by
  unfold keyLe at h1 h2 ⊢
  by_cases hab : a.1 = b.1 <;> by_cases hbc : b.1 = c.1
  · rw [if_pos (hab.trans hbc)]
    rw [if_pos hab] at h1
    rw [if_pos hbc] at h2
    exact idLe_trans _ _ _ h1 h2
  · rw [if_neg (fun h => hbc (hab.symm.trans h)), hab]
    rwa [if_neg hbc] at h2
  · rw [if_neg (fun h => hab (h.trans hbc.symm)), ← hbc]
    rwa [if_neg hab] at h1
  · rw [if_neg hab] at h1
    rw [if_neg hbc] at h2
    have hac : idLt a.1 c.1 = true := by
      unfold idLt at h1 h2 ⊢
      exact charsLt_trans _ _ _ h1 h2
    by_cases he : a.1 = c.1
    · exfalso
      rw [he] at h1
      unfold idLt at h1 h2
      have := charsLt_asymm _ _ h1
      rw [this] at h2
      cases h2
    · rw [if_neg he]
      exact hac

theorem keyLe_antisymm (a b : StateKey) (h1 : keyLe a b = true) (h2 : keyLe b a = true) :
    a = b := by
  unfold keyLe at h1 h2
  by_cases h : a.1 = b.1
  · rw [if_pos h] at h1
    rw [if_pos h.symm] at h2
    exact Prod.ext_iff.mpr ⟨h, idLe_antisymm _ _ h1 h2⟩
  · rw [if_neg h] at h1
    rw [if_neg (Ne.symm h)] at h2
    unfold idLt at h1 h2
    have := charsLt_asymm _ _ h1
    rw [this] at h2
    cases h2

theorem strLe_total (a b : String) : strLe a b = true ∨ strLe b a = true := idLe_total a b

theorem insertSorted_pairwise {α : Type} {le : α → α → Bool}
    (htrans : ∀ a b c, le a b = true → le b c = true → le a c = true)
    (htot : ∀ a b, le a b = true ∨ le b a = true) (a : α) :
    ∀ {l : List α}, l.Pairwise (fun x y => le x y = true) →
      (insertSorted le a l).Pairwise (fun x y => le x y = true) := by
  intro l
  induction l with
  | nil =>
    intro _
    exact List.pairwise_singleton _ a
  | cons b bs ih =>
    intro hl
    rw [List.pairwise_cons] at hl
    unfold insertSorted
    by_cases h : le a b
    · rw [if_pos h]
      refine List.pairwise_cons.mpr ⟨?_, List.pairwise_cons.mpr hl⟩
      intro y hy
      rcases List.mem_cons.mp hy with h' | h'
      · exact h' ▸ h
      · exact htrans a b y h (hl.1 y h')
    · rw [if_neg h]
      have hba : le b a = true := (htot a b).resolve_left (by simpa using h)
      refine List.pairwise_cons.mpr ⟨?_, ih hl.2⟩
      intro y hy
      have := (insertSorted_perm le a bs).mem_iff.mp hy
      rcases List.mem_cons.mp this with h' | h'
      · exact h' ▸ hba
      · exact hl.1 y h'

theorem sortBy_pairwise {α : Type} {le : α → α → Bool}
    (htrans : ∀ a b c, le a b = true → le b c = true → le a c = true)
    (htot : ∀ a b, le a b = true ∨ le b a = true) :
    ∀ (l : List α), (sortBy le l).Pairwise (fun x y => le x y = true) := by
  intro l
  induction l with
  | nil => exact List.Pairwise.nil
  | cons a as ih => exact insertSorted_pairwise htrans htot a ih

theorem sortBy_eq_of_perm {α : Type} {le : α → α → Bool}
    (htrans : ∀ a b c, le a b = true → le b c = true → le a c = true)
    (htot : ∀ a b, le a b = true ∨ le b a = true)
    (hanti : ∀ a b, le a b = true → le b a = true → a = b)
    {l₁ l₂ : List α} (h : l₁.Perm l₂) : sortBy le l₁ = sortBy le l₂ := by
  haveI : IsAntisymm α (fun x y => le x y = true) := ⟨hanti⟩
  exact List.eq_of_perm_of_sorted
    ((sortBy_perm le l₁).trans (h.trans (sortBy_perm le l₂).symm))
    (sortBy_pairwise htrans htot l₁) (sortBy_pairwise htrans htot l₂)

theorem canonKeys_perm_eq {l₁ l₂ : List StateKey} (h : l₁.Perm l₂) :
    canonKeys l₁ = canonKeys l₂ :=
  sortBy_eq_of_perm keyLe_trans keyLe_total keyLe_antisymm h.dedup

theorem canonSet_perm_eq {l₁ l₂ : List Id} (h : l₁.Perm l₂) :
    canonSet l₁ = canonSet l₂ :=
  sortBy_eq_of_perm idLe_trans idLe_total idLe_antisymm h.dedup

theorem flatten_perm_of_forall₂ {α : Type} {l₁ l₂ : List (List α)}
    (h : List.Forall₂ List.Perm l₁ l₂) : l₁.flatten.Perm l₂.flatten := by
  induction h with
  | nil => exact List.Perm.refl _
  | cons hp _ ih => exact hp.append ih

theorem lookupSM_perm {α : Type} {m' m : StMap α} (hp : m'.Perm m) (hnd : NodupKeys m)
    (k : StateKey) : lookupSM m' k = lookupSM m k := by
  have hnd' : NodupKeys m' := (hp.map Prod.fst).nodup_iff.mpr hnd
  cases hv : lookupSM m k with
  | some v => exact lookupSM_some_of_mem_nodup hnd' (hp.mem_iff.mpr (lookupSM_some_mem hv))
  | none =>
    rw [lookupSM_none_iff] at hv ⊢
    intro hk
    exact hv ((hp.map Prod.fst).mem_iff.mp hk)

theorem allEqual_perm {α : Type} [DecidableEq α] {l₁ l₂ : List α} (h : l₁.Perm l₂) :
    allEqual l₁ = allEqual l₂ := by
  cases h2 : allEqual l₂ with
  | true =>
    exact allEqual_iff.mpr (fun x hx y hy =>
      allEqual_iff.mp h2 x (h.mem_iff.mp hx) y (h.mem_iff.mp hy))
  | false =>
    cases h1 : allEqual l₁ with
    | true =>
      rw [← h2]
      exact (allEqual_iff.mpr (fun x hx y hy =>
        allEqual_iff.mp h1 x (h.mem_iff.mpr hx) y (h.mem_iff.mpr hy))).symm
    | false => rfl

theorem getLast?_eq_of_perm_allEqual {α : Type} [DecidableEq α] {l₁ l₂ : List α}
    (h : l₁.Perm l₂) (hae : allEqual l₂ = true) : l₁.getLast? = l₂.getLast? := by
  cases l₂ with
  | nil => rw [h.eq_nil]
  | cons b bs =>
    have hb2 : (b :: bs).getLast? = some ((b :: bs).getLast (List.cons_ne_nil b bs)) :=
      List.getLast?_eq_getLast _ _
    have hmem : (b :: bs).getLast (List.cons_ne_nil b bs) ∈ l₁ :=
      h.mem_iff.mpr (List.getLast_mem _)
    rw [hb2]
    exact getLast?_of_allEqual (by rw [allEqual_perm h]; exact hae) hmem

theorem collectVals_forall₂_eq {k : StateKey} :
    ∀ {sets' mid : List (StMap Id)}, List.Forall₂ List.Perm sets' mid →
      (∀ m ∈ mid, NodupKeys m) → collectVals sets' k = collectVals mid k := by
  intro sets' mid h1
  induction h1 with
  | nil => intro _; rfl
  | cons hp hr ih =>
    intro hnd
    unfold collectVals
    rw [List.map_cons, List.map_cons]
    congr 1
    · exact lookupSM_perm hp (hnd _ (List.mem_cons_self _ _)) k
    · exact ih (fun m hm => hnd m (List.mem_cons_of_mem _ hm))

theorem collectVals_eq {sets' mid sets : List (StMap Id)}
    (h1 : List.Forall₂ List.Perm sets' mid) (h2 : mid.Perm sets)
    (hnd : ∀ m ∈ sets, NodupKeys m) (k : StateKey) :
    (collectVals sets' k).Perm (collectVals sets k) ∧
      collectVals sets' k = collectVals mid k := by
  have hndm : ∀ m ∈ mid, NodupKeys m := fun m hm => hnd m (h2.mem_iff.mp hm)
  have heq := @collectVals_forall₂_eq k _ _ h1 hndm
  exact ⟨by rw [heq]; exact h2.map _, heq⟩

theorem forall₂_keysOf_perm {l₁ l₂ : List (StMap Id)} (h : List.Forall₂ List.Perm l₁ l₂) :
    List.Forall₂ List.Perm (l₁.map keysOf) (l₂.map keysOf) := by
  induction h with
  | nil => exact List.Forall₂.nil
  | cons hp _ ih => exact List.Forall₂.cons (hp.map Prod.fst) ih

theorem keys_flatMap_perm {sets' mid sets : List (StMap Id)}
    (h1 : List.Forall₂ List.Perm sets' mid) (h2 : mid.Perm sets) :
    (sets'.flatMap keysOf).Perm (sets.flatMap keysOf) := by
  rw [List.flatMap_def, List.flatMap_def]
  exact (flatten_perm_of_forall₂ (forall₂_keysOf_perm h1)).trans (h2.map keysOf).flatten

theorem filterMap_isEmpty_congr {α β γ : Type} {f : α → Option β} {g : α → Option γ}
    {l : List α} (h : ∀ a ∈ l, (f a).isNone = (g a).isNone) :
    (l.filterMap f).isEmpty = (l.filterMap g).isEmpty := by
  induction l with
  | nil => rfl
  | cons a as ih =>
    rw [List.filterMap_cons, List.filterMap_cons]
    have ha := h a (List.mem_cons_self a as)
    cases hfa : f a with
    | none =>
      cases hga : g a with
      | none => exact ih (fun x hx => h x (List.mem_cons_of_mem a hx))
      | some c =>
        rw [hfa, hga] at ha
        cases ha
    | some b =>
      cases hga : g a with
      | none =>
        rw [hfa, hga] at ha
        cases ha
      | some c => rfl

theorem filterMap_flatMap_snd_perm {ks : List StateKey}
    {f g : StateKey → Option (StateKey × List Id)}
    (h : ∀ k ∈ ks, (f k = none ∧ g k = none) ∨
      ∃ v' v, f k = some (k, v') ∧ g k = some (k, v) ∧ v'.Perm v) :
    ((ks.filterMap f).flatMap Prod.snd).Perm ((ks.filterMap g).flatMap Prod.snd) := by
  induction ks with
  | nil => exact List.Perm.refl _
  | cons a as ih =>
    rw [List.filterMap_cons, List.filterMap_cons]
    have htail := ih (fun x hx => h x (List.mem_cons_of_mem a hx))
    rcases h a (List.mem_cons_self a as) with ⟨hf, hg⟩ | ⟨v', v, hf, hg, hp⟩
    · rw [hf, hg]
      exact htail
    · rw [hf, hg, List.flatMap_cons, List.flatMap_cons]
      exact hp.append htail

/-- The three facts about `separate` under reordering of the inputs: the
unconflicted map is unchanged, emptiness of the conflicted map is
unchanged, and the flattened conflicted values are a permutation. -/
theorem separate_perm_parts {sets' mid sets : List (StMap Id)}
    (h1 : List.Forall₂ List.Perm sets' mid) (h2 : mid.Perm sets)
    (hnd : ∀ m ∈ sets, NodupKeys m) :
    (separate sets').1 = (separate sets).1 ∧
      ((separate sets').2).isEmpty = ((separate sets).2).isEmpty ∧
      ((separate sets').2.flatMap Prod.snd).Perm ((separate sets).2.flatMap Prod.snd) := by
  have hks := canonKeys_perm_eq (keys_flatMap_perm h1 h2)
  have hv : ∀ k, (collectVals sets' k).Perm (collectVals sets k) :=
    fun k => (collectVals_eq h1 h2 hnd k).1
  have hae : ∀ k, allEqual (collectVals sets' k) = allEqual (collectVals sets k) :=
    fun k => allEqual_perm (hv k)
  refine ⟨?_, ?_, ?_⟩
  · unfold separate
    dsimp only
    rw [hks]
    apply List.filterMap_congr
    intro k _
    rw [hae k]
    by_cases h : allEqual (collectVals sets k) = true
    · rw [if_pos h, if_pos h, getLast?_eq_of_perm_allEqual (hv k) h]
    · rw [if_neg h, if_neg h]
  · unfold separate
    dsimp only
    rw [hks]
    apply filterMap_isEmpty_congr
    intro k _
    rw [hae k]
    by_cases h : allEqual (collectVals sets k) = true
    · rw [if_pos h, if_pos h]
    · rw [if_neg h, if_neg h]
      rfl
  · unfold separate
    dsimp only
    rw [hks]
    apply filterMap_flatMap_snd_perm
    intro k _
    by_cases h : allEqual (collectVals sets k) = true
    · exact Or.inl ⟨by rw [hae k, if_pos h], by rw [if_pos h]⟩
    · refine Or.inr ⟨(collectVals sets' k).filterMap id, (collectVals sets k).filterMap id,
        by rw [hae k, if_neg h], by rw [if_neg h], ?_⟩
      exact (hv k).filterMap id

theorem countP_eq_of_forall₂ {α : Type} {p : α → Bool} :
    ∀ {l₁ l₂ : List α}, List.Forall₂ (fun a b => p a = p b) l₁ l₂ →
      l₁.countP p = l₂.countP p := by
  intro l₁ l₂ h
  induction h with
  | nil => rfl
  | cons hp _ ih => rw [List.countP_cons, List.countP_cons, hp, ih]

theorem forall₂_perm_self_map {l₁ l₂ : List (List Id)} (h : List.Forall₂ List.Perm l₁ l₂) :
    List.Forall₂ List.Perm (l₁.map (fun s => s)) (l₂.map (fun s => s)) := by
  induction h with
  | nil => exact List.Forall₂.nil
  | cons hp _ ih => exact List.Forall₂.cons hp ih

theorem forall₂_mem_decide {i : Id} {l₁ l₂ : List (List Id)}
    (h : List.Forall₂ List.Perm l₁ l₂) :
    List.Forall₂ (fun a b => decide (i ∈ a) = decide (i ∈ b)) l₁ l₂ := by
  induction h with
  | nil => exact List.Forall₂.nil
  | cons hp _ ih =>
    exact List.Forall₂.cons (decide_eq_decide.mpr hp.mem_iff) ih

theorem getAuthChainDiff_perm_eq {acs' midc acs : List (List Id)}
    (h3 : List.Forall₂ List.Perm acs' midc) (h4 : midc.Perm acs) :
    getAuthChainDiff acs' = getAuthChainDiff acs := by
  have hflat : (acs'.flatMap (fun s => s)).Perm (acs.flatMap (fun s => s)) := by
    rw [List.flatMap_def, List.flatMap_def]
    exact (flatten_perm_of_forall₂ (forall₂_perm_self_map h3)).trans
      (h4.map (fun s => s)).flatten
  unfold getAuthChainDiff
  rw [canonSet_perm_eq hflat]
  apply List.filter_congr
  intro i _
  have hlen : acs'.length = acs.length := h3.length_eq.trans h4.length_eq
  have hcnt : acs'.countP (fun s => decide (i ∈ s)) =
      acs.countP (fun s => decide (i ∈ s)) :=
    (countP_eq_of_forall₂ (forall₂_mem_decide h3)).trans (h4.countP_eq _)
  rw [hcnt, hlen]

theorem allConflictedOf_perm_eq {sets' mid sets : List (StMap Id)}
    {acs' midc acs : List (List Id)} (ex : Id → Bool)
    (h1 : List.Forall₂ List.Perm sets' mid) (h2 : mid.Perm sets)
    (h3 : List.Forall₂ List.Perm acs' midc) (h4 : midc.Perm acs)
    (hnd : ∀ m ∈ sets, NodupKeys m) :
    allConflictedOf sets' acs' ex = allConflictedOf sets acs ex := by
  obtain ⟨_, _, hflat⟩ := separate_perm_parts h1 h2 hnd
  unfold allConflictedOf
  rw [getAuthChainDiff_perm_eq h3 h4,
    canonSet_perm_eq ((List.Perm.refl (getAuthChainDiff acs)).append hflat)]

/-- C7: `resolve` is invariant under permutation of its inputs: permuting
the list of state sets, reordering the entries inside any state set (all
`HashMap`s, so keys are distinct), and correspondingly permuting the
auth-chain sets and the elements within them, yields exactly the same
output state map. `mid`/`midc` decompose the reordering into an
entry-level permutation (`Forall₂ Perm`) followed by a list-level one. -/
theorem resolve_perm_invariant (fuel : Nat) (rv : String)
    {sets' sets : List (StMap Id)} (mid : List (StMap Id))
    {acs' acs : List (List Id)} (midc : List (List Id))
    (fetch : Id → Option Event) (ex : Id → Bool) (aty : AuthTypesFn) (ac : AuthCheckFn)
    (hnd : ∀ m ∈ sets, NodupKeys m)
    (h1 : List.Forall₂ List.Perm sets' mid) (h2 : mid.Perm sets)
    (h3 : List.Forall₂ List.Perm acs' midc) (h4 : midc.Perm acs) :
    resolve fuel rv sets' acs' fetch ex aty ac = resolve fuel rv sets acs fetch ex aty ac := by
  obtain ⟨hclean, hempty, _⟩ := separate_perm_parts h1 h2 hnd
  have hall := allConflictedOf_perm_eq ex h1 h2 h3 h4 hnd
  unfold resolve
  rw [hclean, hempty, hall]

/-- Witness for C7: two concrete state sets (one reordered internally, the
two swapped) with swapped auth-chain sets; both calls produce identical
results. -/
theorem resolve_perm_invariant_witness :
    resolve 4 "6"
        [[(("m.room.member", "@b:x"), "w")],
         [(("m.room.topic", ""), "t"), (("m.room.member", "@b:x"), "u")]]
        [["y"], ["x"]] (fun _ => none) (fun _ => false)
        (fun _ _ _ _ => .ok []) (fun _ _ _ _ => .ok false) =
      resolve 4 "6"
        [[(("m.room.member", "@b:x"), "u"), (("m.room.topic", ""), "t")],
         [(("m.room.member", "@b:x"), "w")]]
        [["x"], ["y"]] (fun _ => none) (fun _ => false)
        (fun _ _ _ _ => .ok []) (fun _ _ _ _ => .ok false) := by
  refine resolve_perm_invariant 4 "6"
    [[(("m.room.member", "@b:x"), "w")],
      [(("m.room.member", "@b:x"), "u"), (("m.room.topic", ""), "t")]]
    [["y"], ["x"]]
    (fun _ => none) (fun _ => false) (fun _ _ _ _ => .ok []) (fun _ _ _ _ => .ok false)
    (by
      intro m hm
      unfold NodupKeys
      rcases List.mem_cons.mp hm with rfl | hm
      · decide
      · rcases List.mem_cons.mp hm with rfl | hm
        · decide
        · cases hm) ?_ ?_ ?_ ?_
  · exact List.Forall₂.cons (by decide) (List.Forall₂.cons (by decide) List.Forall₂.nil)
  · decide
  · exact List.Forall₂.cons (by decide) (List.Forall₂.cons (by decide) List.Forall₂.nil)
  · decide

end StateRes
